import Mathlib

/-!
# Verification of the `.sou` ingestion utility scripts

Shallow embedding of the repository's Python sources:

* `src/sou_parser.py` — streaming parser for the `.sou` XML dialect
  (`parse`, `parse_metadata`, `extract_class_name`);
* `src/app/truncate_xml.py` and `src/app/truncate_xml_new.py` — XML
  truncation utilities (`truncate_xml_to_lines`, `balance_xml_tags`);
* `src/app/CreateIndexes.py` — index catalog management (`create_indexes`).

Machine-level details that the claims do not depend on are abstracted as
follows and documented at each definition:

* the lxml event stream over a well-formed `.sou` document is modelled as the
  list of its top-level elements in document order (the dispatch in
  `parse` only reacts to end events of `class` / `comment` / `methods`
  elements, so nested elements are invisible to it);
* `uuid.uuid4()` draws are modelled as reads from an injective supply
  `σ : Nat → Nat`, consumed left to right;
* the strict and recovering lxml parses inside `truncate_xml_to_lines`
  are oracles `String → Option String` (`none` models a raised exception).
-/

/-! ## Python string primitives

Kernel-computable models of the Python `str` methods the sources use.
(The library's `String.trim`, `String.endsWith`, `String.splitOn` go through
`Substring` byte positions and do not reduce inside `decide`, so the
embeddings below use these character-list implementations instead.) -/

/-- Python `str.strip()` (no argument): remove leading and trailing
whitespace. -/
def pyStrip (s : String) : String :=
  ⟨((s.data.dropWhile Char.isWhitespace).reverse.dropWhile
      Char.isWhitespace).reverse⟩

/-- Python `str.endswith(suffix)`. -/
def pyEndsWith (s suffix : String) : Bool :=
  suffix.data.isSuffixOf s.data

/-- Python `str.startswith(prefix)`. -/
def pyStartsWith (s pre : String) : Bool :=
  pre.data.isPrefixOf s.data

/-- Python `str.split(sep)` for a one-character separator, on character
lists: splits at every occurrence, keeping empty pieces (`"".split(".") ==
[""]`, `"a..b".split(".") == ["a", "", "b"]`). -/
def splitOnCharL (sep : Char) : List Char → List (List Char)
  | [] => [[]]
  | c :: rest =>
      if c = sep then [] :: splitOnCharL sep rest
      else
        match splitOnCharL sep rest with
        | l :: ls => (c :: l) :: ls
        | [] => [[c]]

namespace Sou

/-- `SymbolType` from `app.modules.neo4j.models.symbol` (only the two
constructors the parser uses). -/
inductive SymbolType where
  | TYPE
  | METHOD
deriving DecidableEq, Repr, Inhabited

/-- The record yielded by `parse` in `src/sou_parser.py`: a Python dict with
exactly the five keys `name`, `type`, `body`, `comment`, `id`.  Ids
(`str(uuid.uuid4())` in the source) are opaque tokens, modelled as `Nat`. -/
structure Symbol where
  name : String
  type : SymbolType
  body : String
  comment : String
  id : Nat
deriving DecidableEq, Repr, Inhabited

/-- A top-level element of a `.sou` document, carrying exactly the data the
parser reads from it:

* `cls nameText innerXml` — a `<class>` element; `nameText` is
  `elem.findtext("name")` and `innerXml` the serialized children
  (`"".join(ET.tostring(e) for e in elem)` before the `.strip()`);
* `comment classId body` — a `<comment>` element with its
  `<class-id>` and `<body>` texts (`findtext` defaults to `""`);
* `methods classId bodies` — a `<methods>` element with its `<class-id>`
  text and its `<body>` children as `(selector attribute, text)` pairs;
  a missing `selector` attribute is `none` (Python `None`), a missing text
  is `""` (the source immediately defaults it with `body.text or ""`). -/
inductive Elem where
  | cls (nameText : String) (innerXml : String)
  | comment (classId : String) (body : String)
  | methods (classId : String) (bodies : List (Option String × String))
deriving DecidableEq, Repr

/-- `extract_class_name` from `src/sou_parser.py`:
`full_name.split(".")[-1]`. -/
def extract_class_name (full_name : String) : String :=
  ⟨(splitOnCharL '.' full_name.data).getLastD []⟩

/-- Rendering of a selector attribute into the f-string
`f"{class_name}.{body.get('selector')}"`: Python formats a missing
attribute as `"None"`. -/
def selStr : Option String → String
  | some s => s
  | none => "None"

/-- The records yielded by the `for body in elem.findall("body")` loop of the
`methods` branch of `parse`, with `k` the index of the next unused id draw. -/
def methodRecords (σ : Nat → Nat) (k : Nat) (className : String) :
    List (Option String × String) → List Symbol
  | [] => []
  | (sel, txt) :: rest =>
      { name := className ++ "." ++ selStr sel
        type := SymbolType.METHOD
        comment := ""
        body := pyStrip txt
        id := σ k } :: methodRecords σ (k + 1) className rest

/-- The record built when a `<class>` element ends
(`pending_class = {...}` in `parse`). -/
def mkClassRecord (σ : Nat → Nat) (k : Nat) (nameText innerXml : String) :
    Symbol :=
  { name := extract_class_name nameText
    type := SymbolType.TYPE
    body := pyStrip innerXml
    comment := ""
    id := σ k }

/-- The event loop of `parse` in `src/sou_parser.py`, one step per end event
of a top-level `class` / `comment` / `methods` element:

* `class` end: a fresh pending record replaces whatever was pending;
* `comment` end with a pending class: the comment body is merged in when
  `extract_class_name(class-id).endswith(pending.name)` and the pending
  record is yielded either way;
* `comment` end without a pending class: nothing happens (in the source the
  `elif elem.tag == "comment" and pending_class` guard fails and the
  trailing `elif pending_class` is also false, so only `elem.clear()` runs);
* `methods` end: one `METHOD` record per `<body>` child; the pending class
  is untouched.

`k` counts the `uuid.uuid4()` draws made so far. -/
def parseGo (σ : Nat → Nat) (k : Nat) (pending : Option Symbol) :
    List Elem → List Symbol
  | [] => []
  | Elem.cls n inner :: rest =>
      parseGo σ (k + 1) (some (mkClassRecord σ k n inner)) rest
  | Elem.comment cid cb :: rest =>
      match pending with
      | some p =>
          (if pyEndsWith (extract_class_name cid) p.name then
            { p with comment := pyStrip cb }
          else p) :: parseGo σ k none rest
      | none => parseGo σ k none rest
  | Elem.methods cid bodies :: rest =>
      methodRecords σ k (extract_class_name cid) bodies ++
        parseGo σ (k + bodies.length) pending rest

/-- `parse` from `src/sou_parser.py`, as the list of records the generator
yields on the document `doc`, with ids drawn from the supply `σ`. -/
def parse (σ : Nat → Nat) (doc : List Elem) : List Symbol :=
  parseGo σ 0 none doc

/-- `parse_metadata` from `src/sou_parser.py`: collects
`f"{class_name}.{selector}"` for every `<body>` of every `<methods>` element,
guarded by Python truthiness `if class_name and selector` — and, unlike
`parse`, uses the raw `findtext("class-id")` without `extract_class_name`.
The Python `set` is modelled as the list of insertions; claims compare it by
membership. -/
def parse_metadata : List Elem → List String
  | [] => []
  | Elem.methods cid bodies :: rest =>
      bodies.filterMap (fun b =>
        match b.1 with
        | some sel => if cid ≠ "" ∧ sel ≠ "" then some (cid ++ "." ++ sel)
            else none
        | none => none) ++ parse_metadata rest
  | _ :: rest => parse_metadata rest

/-- A `class` or `comment` element: the two element kinds whose end events
decide the fate of a pending class record in `parse` (a `methods` end leaves
the pending record untouched). -/
def isBoundary : Elem → Bool
  | Elem.cls _ _ => true
  | Elem.comment _ _ => true
  | Elem.methods _ _ => false

/-- Characterization (statement side of the amended claim C2) of the
`(name, comment)` pairs of the `TYPE` records `parse` emits: a class is
emitted exactly when the first `class`/`comment` boundary after it is a
`comment` element, with the comment body merged in when its class-id's last
dot-component ends with the class name; a class whose next boundary is
another class, or that reaches the end of the document, is never emitted. -/
def flushedTypePairs : List Elem → List (String × String)
  | [] => []
  | Elem.cls n _ :: rest =>
      (match rest.find? isBoundary with
       | some (Elem.comment cid cb) =>
           [(extract_class_name n,
             if pyEndsWith (extract_class_name cid) (extract_class_name n)
             then pyStrip cb else "")]
       | _ => []) ++ flushedTypePairs rest
  | _ :: rest => flushedTypePairs rest

/-- The `(name, comment)` contribution of a pending record `p` to the `TYPE`
output of the remaining event stream (proof-side generalization of
`flushedTypePairs` to an arbitrary pending record). -/
def pendingFate (p : Symbol) (rest : List Elem) : List (String × String) :=
  match rest.find? isBoundary with
  | some (Elem.comment cid cb) =>
      if p.type = SymbolType.TYPE then
        [(p.name,
          if pyEndsWith (extract_class_name cid) p.name then pyStrip cb
          else p.comment)]
      else []
  | _ => []

/-- All fields of a record except its id (used to state that re-parsing
changes nothing but the ids). -/
def eraseId (r : Symbol) : String × SymbolType × String × String :=
  (r.name, r.type, r.body, r.comment)

/-- Replace a record's id by its image under the supply `σ` (used to state
that ids are drawn from the supply and never derived from content). -/
def updId (σ : Nat → Nat) (r : Symbol) : Symbol :=
  { r with id := σ r.id }

/-- Statement side of the amended claim C5: a `methods` element on which
`parse` and `parse_metadata` agree — its class-id equals its own last
dot-component (no dots) and is nonempty, and every `body` entry has a
nonempty `selector` attribute.  Non-`methods` elements impose nothing. -/
def metadataCompatible : Elem → Bool
  | Elem.methods cid bodies =>
      extract_class_name cid == cid && cid != "" &&
        bodies.all (fun b =>
          match b.1 with
          | some s => s != ""
          | none => false)
  | _ => true

end Sou

namespace Trunc

/-! ## `balance_xml_tags`

Character-level embedding of `balance_xml_tags`, which appears verbatim in
both `src/app/truncate_xml.py` (lines 55–103) and
`src/app/truncate_xml_new.py` (lines 167–215).  The two regex passes the
source runs on every line are compiled into deterministic scanners:

* the opening pattern `<([a-zA-Z][\w-]*)[^/>]*(?<!/)>` matches at a `<`
  followed by a letter exactly when the first `/` or `>` after it is a `>`;
  the capture is the maximal `[\w-]*` run after the first letter (the
  lookbehind is redundant since `[^/>]*` cannot end in `/`);
* the closing pattern `</([a-zA-Z][\w-]*)>` matches `</`, a letter, a
  maximal `[\w-]*` run, then an immediate `>`;
* the self-closing pass in the source does nothing (`pass`) and is omitted.

`re.finditer` semantics: matches are leftmost and non-overlapping — after a
match the scan resumes after its final `>`, after a failed candidate it
resumes at the next `<`. -/

/-- Python `\w` (ASCII) together with `-`, as in the tag-name character class
`[\w-]` of both regexes. -/
def pyWordChar (c : Char) : Bool :=
  c.isAlphanum || c = '_' || c = '-'

/-- A character that does not terminate the `[^/>]*` run of the opening
pattern. -/
def nonTagEnd (c : Char) : Bool :=
  !(c = '/' || c = '>')

/-- Try to match the tail of the opening pattern at the position just after a
`<`: returns the captured tag name and the number of characters consumed
(through the closing `>`). -/
def scanOpenAt : List Char → Option (String × Nat)
  | c :: cs =>
      if c.isAlpha then
        let body := (c :: cs).takeWhile nonTagEnd
        match (c :: cs).drop body.length with
        | '>' :: _ => some (⟨c :: cs.takeWhile pyWordChar⟩, body.length + 1)
        | _ => none
      else none
  | [] => none

/-- The opening-pattern scan with an explicit skip counter: `skip` characters
still belonging to the previous match are passed over one at a time, so the
recursion is structural.  `scanOpensGo l (cnt)` behaves as a scan of
`l.drop cnt`. -/
def scanOpensGo : List Char → Nat → List String
  | [], _ => []
  | _ :: rest, skip + 1 => scanOpensGo rest skip
  | a :: rest, 0 =>
      if a = '<' then
        match scanOpenAt rest with
        | some (n, cnt) => n :: scanOpensGo rest cnt
        | none => scanOpensGo rest 0
      else scanOpensGo rest 0

/-- All opening-pattern matches of one line, in order (the first `re.finditer`
loop of `balance_xml_tags`; the dead `if tag_name not in ['?xml', '!--']`
test in the source can never fire, since the pattern requires a letter right
after `<`).  `re.finditer` semantics: after a match the scan resumes after
its final `>` (the skip counter), after a failed candidate at the next
`<`. -/
def scanOpens (l : List Char) : List String :=
  scanOpensGo l 0

/-- Try to match the tail of the closing pattern at the position just after a
`<`. -/
def scanCloseAt : List Char → Option (String × Nat)
  | c0 :: rest =>
      if c0 = '/' then
        match rest with
        | c :: cs =>
            if c.isAlpha then
              let run := cs.takeWhile pyWordChar
              match cs.drop run.length with
              | '>' :: _ => some (⟨c :: run⟩, run.length + 3)
              | _ => none
            else none
        | [] => none
      else none
  | [] => none

/-- The closing-pattern scan with an explicit skip counter (as
`scanOpensGo`). -/
def scanClosesGo : List Char → Nat → List String
  | [], _ => []
  | _ :: rest, skip + 1 => scanClosesGo rest skip
  | a :: rest, 0 =>
      if a = '<' then
        match scanCloseAt rest with
        | some (n, cnt) => n :: scanClosesGo rest cnt
        | none => scanClosesGo rest 0
      else scanClosesGo rest 0

/-- All closing-pattern matches of one line, in order (the third
`re.finditer` loop of `balance_xml_tags`). -/
def scanCloses (l : List Char) : List String :=
  scanClosesGo l 0

/-- The per-line body of the `for line in lines` loop of `balance_xml_tags`:
push every opening match (`open_tags.append`), then for every closing match
pop the top of the stack when it carries the same name
(`if open_tags and open_tags[-1] == tag_name: open_tags.pop()`).  The stack
head is the most recently opened tag (the end of the Python list). -/
def processLine (stack : List String) (line : List Char) : List String :=
  let pushed := (scanOpens line).foldl (fun st t => t :: st) stack
  (scanCloses line).foldl
    (fun st t =>
      match st with
      | top :: st2 => if top = t then st2 else st
      | [] => st) pushed

/-- The comment line the source appends before the generated closing tags:
`'\n  <!-- Truncated - closing open tags -->'` (note the embedded leading
newline). -/
def commentLineChars : List Char :=
  "\n  <!-- Truncated - closing open tags -->".data

/-- The generated closing tag `f'</{tag}>'`. -/
def closerChars (t : String) : List Char :=
  '<' :: '/' :: t.data ++ ['>']

/-- `'\n'.join(...)` over character-list lines. -/
def intercalateNL : List (List Char) → List Char
  | [] => []
  | [l] => l
  | l :: ls => l ++ '\n' :: intercalateNL ls

/-- `balance_xml_tags` on the character list of its input: split on `'\n'`,
run the two scanners over every line, then — when tags remain open — append
the comment line and one closing tag per remaining open tag, innermost
first (`while open_tags: tag = open_tags.pop()`). -/
def balanceChars (content : List Char) : List Char :=
  let lines := splitOnCharL '\n' content
  let openTags := lines.foldl processLine []
  if openTags.isEmpty then intercalateNL lines
  else intercalateNL (lines ++ commentLineChars :: openTags.map closerChars)

/-- `balance_xml_tags` from `src/app/truncate_xml.py` /
`src/app/truncate_xml_new.py`. -/
def balance_xml_tags (xml_content : String) : String :=
  ⟨balanceChars xml_content.data⟩

/-! ## Well-formedness checker

Formalization of “parses as well-formed XML” at the tag-balance level, for
stating claims about `balance_xml_tags` output: a scan that pushes opening
tags, pops matching closing tags (rejecting any mismatch or stray
material), skips `<!-- ... -->` comments and `<? ... >` declarations, and
accepts exactly when the input ends with an empty stack.  Attribute values
are assumed not to contain `>` (true of all inputs handled here). -/

/-- Skip to just past the terminator `-->` of a comment, returning the
number of characters consumed. -/
def skipCommentCnt : List Char → Option Nat
  | '-' :: '-' :: '>' :: _ => some 3
  | _ :: rest =>
      match skipCommentCnt rest with
      | some n => some (n + 1)
      | none => none
  | [] => none

/-- Consume one markup construct starting just after a `<`: a comment, a
closing tag (popping the stack, rejecting a mismatch), a declaration, an
opening or self-closing tag.  Returns the new stack and the number of
characters consumed. -/
def xmlTagAt (stack : List String) : List Char → Option (List String × Nat)
  | [] => none
  | c :: rest =>
      if c = '!' then
        match rest with
        | '-' :: '-' :: rest2 =>
            match skipCommentCnt rest2 with
            | some cnt => some (stack, cnt + 3)
            | none => none
        | _ => none
      else if c = '/' then
        let content := rest.takeWhile (fun x => !(x = '>'))
        match rest.drop content.length with
        | '>' :: _ =>
            match stack with
            | top :: stack2 =>
                if top = (⟨content⟩ : String) then
                  some (stack2, content.length + 2)
                else none
            | [] => none
        | _ => none
      else if c = '?' then
        let content := rest.takeWhile (fun x => !(x = '>'))
        match rest.drop content.length with
        | '>' :: _ => some (stack, content.length + 2)
        | _ => none
      else if c.isAlpha then
        let content := (c :: rest).takeWhile (fun x => !(x = '>'))
        match (c :: rest).drop content.length with
        | '>' :: _ =>
            if content.getLast? = some '/' then some (stack, content.length + 1)
            else some ((⟨c :: rest.takeWhile pyWordChar⟩ : String) :: stack,
              content.length + 1)
        | _ => none
      else none

/-- The tag-balance scan with an explicit skip counter (structural
recursion): `skip` characters belonging to the construct just consumed are
passed over one at a time. -/
def xmlScanGo : List String → List Char → Nat → Option (List String)
  | stack, [], _ => some stack
  | stack, _ :: rest, skip + 1 => xmlScanGo stack rest skip
  | stack, a :: rest, 0 =>
      if a = '<' then
        match xmlTagAt stack rest with
        | some (stack2, cnt) => xmlScanGo stack2 rest cnt
        | none => none
      else xmlScanGo stack rest 0

/-- The tag-balance scan: `some finalStack` on success, `none` on any
mismatched or malformed markup. -/
def xmlScan (stack : List String) (l : List Char) : Option (List String) :=
  xmlScanGo stack l 0

/-- A string parses as balanced XML: the scan succeeds and no tag remains
open. -/
def wellFormedXml (s : String) : Bool :=
  match xmlScan [] s.data with
  | some [] => true
  | _ => false

/-! ## Line-structured input (statement side of the amended claim C4)

A line-cut `.sou` prefix in the layout the amended claim covers: every line
is a sequence of items — complete tags and `<`-free text — and the tag
items of one line form one of the shapes `[]`, `[open]`, `[close]`,
`[open n, close n]`.  Tags never span lines, attribute text contains no
`/`, `>`, `<` or newline and does not start with a name character, and the
closing tags seen so far always match the innermost open tag (true of any
prefix of a well-formed document). -/

/-- One item of a line of the structured input. -/
inductive Item where
  | openT (name : String) (attrs : String)
  | closeT (name : String)
  | text (s : String)
deriving DecidableEq, Repr

/-- The concrete characters an item stands for. -/
def renderItem : Item → List Char
  | Item.openT n a => '<' :: (n.data ++ a.data ++ ['>'])
  | Item.closeT n => '<' :: '/' :: (n.data ++ ['>'])
  | Item.text s => s.data

/-- The concrete characters of one line. -/
def renderLine (items : List Item) : List Char :=
  (items.map renderItem).flatten

/-- A tag name both scanners recover exactly: nonempty, a letter followed by
word characters. -/
def goodTagName (n : String) : Bool :=
  match n.data with
  | [] => false
  | c :: cs => c.isAlpha && cs.all pyWordChar

/-- Attribute text the opening-pattern regex can traverse: no `/`, `>`, `<`
or newline, and (when nonempty) not starting with a name character. -/
def goodAttrs (a : String) : Bool :=
  a.data.all (fun c => !(c = '/' || c = '>' || c = '<' || c = '\n')) &&
    (match a.data with
     | [] => true
     | c :: _ => !pyWordChar c)

/-- Character data without markup: no `<` and no newline. -/
def goodText (s : String) : Bool :=
  s.data.all (fun c => !(c = '<' || c = '\n'))

/-- Well-formedness of a single item. -/
def goodItem : Item → Bool
  | Item.openT n a => goodTagName n && goodAttrs a
  | Item.closeT n => goodTagName n
  | Item.text _s => goodText _s

/-- The tag token of an item: `(true, name)` for an opening tag,
`(false, name)` for a closing tag, nothing for text. -/
def itemTag : Item → Option (Bool × String)
  | Item.openT n _ => some (true, n)
  | Item.closeT n => some (false, n)
  | Item.text _ => none

/-- The tag shapes of a line covered by the amended claim: no tag, a single
opening or closing tag, or a one-line leaf element `open n … close n`. -/
def goodLineShape (items : List Item) : Bool :=
  match items.filterMap itemTag with
  | [] => true
  | [_] => true
  | [(true, n), (false, m)] => n == m
  | _ => false

/-- The name of an opening-tag item. -/
def openName : Item → Option String
  | Item.openT n _ => some n
  | _ => none

/-- The name of a closing-tag item. -/
def closeName : Item → Option String
  | Item.closeT n => some n
  | _ => none

/-- Reference semantics of one tag token on the stack of open elements. -/
def tagStep (st : Option (List String)) (t : Bool × String) :
    Option (List String) :=
  match st with
  | none => none
  | some stack =>
      if t.1 then some (t.2 :: stack)
      else
        match stack with
        | top :: rest => if top = t.2 then some rest else none
        | [] => none

/-- Reference semantics of one item on the stack of open elements
(`none` = a closing tag that does not match the innermost open element). -/
def trueStepItem (st : Option (List String)) (it : Item) : Option (List String) :=
  match st with
  | none => none
  | some stack =>
      match it with
      | Item.openT n _ => some (n :: stack)
      | Item.closeT n =>
          match stack with
          | top :: rest => if top = n then some rest else none
          | [] => none
      | Item.text _ => some stack

/-- The stack of still-open elements after all lines, `none` when some
closing tag was mismatched (a line-cut prefix of a well-formed document
always yields `some`). -/
def trueStack (lines : List (List Item)) : Option (List String) :=
  lines.foldl (fun st line => line.foldl trueStepItem st) (some [])

end Trunc

namespace TruncOld

/-- `truncate_xml_to_lines` from `src/app/truncate_xml.py` (lines 12–52).
The input file is its list of lines, each line keeping its trailing newline
exactly as Python file iteration yields it; the loop keeps the first
`max_lines` of them and `''.join`s them.  `strictParse` models
`etree.fromstring` followed by pretty-printing `tostring` (`none` = the
`etree.XMLSyntaxError` the `except` catches); `recoverParse` models the
same with the (`recover=True`) parser (`none` = the `Exception` its
`except` catches).  When both raise, the result is `balance_xml_tags` of
the truncated content. -/
def truncate_xml_to_lines (strictParse recoverParse : String → Option String)
    (fileLines : List String) (max_lines : Nat) : String :=
  let truncated_content := String.join (fileLines.take max_lines)
  match strictParse truncated_content with
  | some s => s
  | none =>
      match recoverParse truncated_content with
      | some s => s
      | none => Trunc.balance_xml_tags truncated_content

end TruncOld

namespace TruncNew

/-- One line of the input file of `truncate_xml_to_lines` in
`src/app/truncate_xml_new.py`, packaged together with the outcome of every
per-line test the function performs on it:

* `isClassOpen` — `re.search(r'<class[>\s]', line)` succeeded;
* `nameText` — the capture of `re.search(r'<name>([^<]+)</name>', line)`
  (`none` when the pattern does not match; the separate `'<name>' in line`
  test in the source is subsumed, since a match implies the substring);
* `hasClassClose` — `'</class>' in line`;
* `hasMethodsOpen` — `'<methods>' in line`;
* `classIdText` — the capture of
  `re.search(r'<class-id>([^<]+)</class-id>', line)` (`none` = no match);
* `hasMethodsClose` — `'</methods>' in line`;
* `startsTag` — `re.search(r'<[a-zA-Z]', line)` succeeded;
* `isXmlDecl` — `'<?xml' in line`;
* `raw` — the line's text (with its trailing newline). -/
structure SLine where
  isClassOpen : Bool := false
  nameText : Option String := none
  hasClassClose : Bool := false
  hasMethodsOpen : Bool := false
  classIdText : Option String := none
  hasMethodsClose : Bool := false
  startsTag : Bool := false
  isXmlDecl : Bool := false
  raw : String := ""
deriving DecidableEq, Repr, Inhabited

/-- The scanning mode of the first pass of `truncate_xml_to_lines`
(`src/app/truncate_xml_new.py` lines 40–86): at top level, inside a
`<class>` element (inner `while … and class_depth > 0` loop, carrying its
start line, current depth and latest `<name>` capture), or inside a
`<methods>` element (inner `while` loop carrying its start line and latest
`<class-id>` capture).  The Python index loop examines every line exactly
once, so the pass is a single walk with this mode as state. -/
inductive ScanMode where
  | top
  | inClass (start : Nat) (depth : Nat) (nm : Option String)
  | inMethods (start : Nat) (cid : Option String)
deriving DecidableEq, Repr

/-- The first pass of `truncate_xml_to_lines`
(`src/app/truncate_xml_new.py` lines 40–86): walk the file once, collecting
`class_ranges` (start line, end line, captured name) and `methods_ranges`
(start line, end line, captured class-id).  Inside a class, every line
first updates the name capture, then the depth
(`re.search(r'<class[>\s]', …)` increments, `'</class>'` decrements); the
range closes when the depth reaches zero.  Inside a methods block, the
class-id capture is updated and `'</methods>'` closes the range.  When an
element's closing line is never found the pass ends with no further
ranges, exactly as the Python index loop runs off the end of the file. -/
def findRangesGo : List SLine → Nat → ScanMode →
    List (Nat × Nat × Option String) × List (Nat × Nat × Option String)
  | [], _, _ => ([], [])
  | l :: rest, p, ScanMode.top =>
      if l.isClassOpen then findRangesGo rest (p + 1) (ScanMode.inClass p 1 none)
      else if l.hasMethodsOpen then
        findRangesGo rest (p + 1) (ScanMode.inMethods p none)
      else findRangesGo rest (p + 1) ScanMode.top
  | l :: rest, p, ScanMode.inClass start depth nm =>
      let nm2 := match l.nameText with
        | some x => some x
        | none => nm
      let depth2 := if l.isClassOpen then depth + 1 else depth
      if l.hasClassClose then
        if depth2 - 1 = 0 then
          let r := findRangesGo rest (p + 1) ScanMode.top
          ((start, p, nm2) :: r.1, r.2)
        else findRangesGo rest (p + 1) (ScanMode.inClass start (depth2 - 1) nm2)
      else findRangesGo rest (p + 1) (ScanMode.inClass start depth2 nm2)
  | l :: rest, p, ScanMode.inMethods start cid =>
      let cid2 := match l.classIdText with
        | some x => some x
        | none => cid
      if l.hasMethodsClose then
        let r := findRangesGo rest (p + 1) ScanMode.top
        (r.1, (start, p, cid2) :: r.2)
      else findRangesGo rest (p + 1) (ScanMode.inMethods start cid2)

/-- The collected `(class_ranges, methods_ranges)` of a file. -/
def findRanges (lines : List SLine) (p : Nat) :
    List (Nat × Nat × Option String) × List (Nat × Nat × Option String) :=
  findRangesGo lines p ScanMode.top

/-- The header search (`src/app/truncate_xml_new.py` lines 113–117): the
index of the first line matching `<[a-zA-Z]` that is not the XML
declaration; `header_end` stays `0` when no line matches. -/
def findHeaderEnd : List SLine → Nat → Option Nat
  | [], _ => none
  | l :: rest, p =>
      if l.startsTag && !l.isXmlDecl then some p
      else findHeaderEnd rest (p + 1)

/-- `header_end` for a file. -/
def headerEnd (lines : List SLine) : Nat :=
  (findHeaderEnd lines 0).getD 0

/-- Insertion into a list sorted by range start (`x` goes after entries with
a smaller-or-equal start, matching the stability of Python `sort`). -/
def insertByStart (x : Nat × Nat) : List (Nat × Nat) → List (Nat × Nat)
  | [] => [x]
  | y :: ys => if x.1 < y.1 then x :: y :: ys else y :: insertByStart x ys

/-- `priority_ranges.sort(key=lambda x: x[1])`. -/
def sortByStart : List (Nat × Nat) → List (Nat × Nat)
  | [] => []
  | x :: xs => insertByStart x (sortByStart xs)

/-- The priority categorization (`src/app/truncate_xml_new.py` lines
88–106): class ranges whose captured name is truthy and starts with one of
the prefixes, followed by methods ranges whose captured class-id is one of
those priority class names, sorted by start line. -/
def priorityRanges (prefixes : List String)
    (crs mrs : List (Nat × Nat × Option String)) : List (Nat × Nat) :=
  let pcn := crs.filterMap (fun r =>
    match r.2.2 with
    | some n =>
        if n ≠ "" && prefixes.any (fun pre => pyStartsWith n pre) then some n
        else none
    | none => none)
  let prC := crs.filterMap (fun r =>
    match r.2.2 with
    | some n =>
        if n ≠ "" && prefixes.any (fun pre => pyStartsWith n pre) then
          some (r.1, r.2.1)
        else none
    | none => none)
  let prM := mrs.filterMap (fun r =>
    match r.2.2 with
    | some c => if c ∈ pcn then some (r.1, r.2.1) else none
    | none => none)
  sortByStart (prC ++ prM)

/-- The inner loop of the priority phase (`for i in range(start, end + 1)`):
append each index not yet used; after an append, stop as soon as the output
has reached `max_lines` lines.  `out` is both `output_lines` (as indices,
in order) and `used_lines` (its membership). -/
def addIndices (max_lines : Nat) : List Nat → List Nat → List Nat
  | out, [] => out
  | out, i :: rest =>
      if i ∈ out then addIndices max_lines out rest
      else
        let out2 := out ++ [i]
        if max_lines ≤ out2.length then out2
        else addIndices max_lines out2 rest

/-- The priority phase (`src/app/truncate_xml_new.py` lines 124–133): for
each priority range, stop if the output already has `max_lines` lines,
otherwise add the range's not-yet-used lines. -/
def addRanges (max_lines : Nat) : List Nat → List (Nat × Nat) → List Nat
  | out, [] => out
  | out, (s, e) :: rest =>
      if max_lines ≤ out.length then out
      else addRanges max_lines
        (addIndices max_lines out (List.range' s (e + 1 - s))) rest

/-- The filler phase (`src/app/truncate_xml_new.py` lines 136–141): walk the
remaining indices, stopping at `max_lines`, skipping used ones. -/
def addOther (max_lines : Nat) : List Nat → List Nat → List Nat
  | out, [] => out
  | out, i :: rest =>
      if max_lines ≤ out.length then out
      else if i ∈ out then addOther max_lines out rest
      else addOther max_lines (out ++ [i]) rest

/-- The complete line-selection logic of `truncate_xml_to_lines` in
`src/app/truncate_xml_new.py` (everything before the re-parse tiers), as
the list of selected line indices in output order: the header lines
`0 … header_end`, then the priority ranges, then the remaining lines, the
last two phases bounded by `max_lines`. -/
def truncateSelect (lines : List SLine) (max_lines : Nat)
    (prefixes : List String) : List Nat :=
  let fr := findRanges lines 0
  let pr := priorityRanges prefixes fr.1 fr.2
  let he := headerEnd lines
  let out := List.range (he + 1)
  let out2 := addRanges max_lines out pr
  addOther max_lines out2 (List.range' (he + 1) (lines.length - (he + 1)))

/-- `truncate_xml_to_lines` from `src/app/truncate_xml_new.py` (lines
12–164): assemble the selected lines into `truncated_content`, then run the
same three re-parse tiers as the old variant. -/
def truncate_xml_to_lines (strictParse recoverParse : String → Option String)
    (lines : List SLine) (max_lines : Nat) (prefixes : List String) : String :=
  let sel := truncateSelect lines max_lines prefixes
  let truncated_content :=
    String.join (sel.map (fun i => ((lines.map SLine.raw).getD i "")))
  match strictParse truncated_content with
  | some s => s
  | none =>
      match recoverParse truncated_content with
      | some s => s
      | none => Trunc.balance_xml_tags truncated_content

end TruncNew

namespace CreateIdx

/-- The `indexes` dict of `create_indexes` in `src/app/CreateIndexes.py`
(lines 18–65): the seven fixed schema statements, in insertion order
(Python dicts iterate in insertion order), as `(index name, statement)`
pairs with the exact source text. -/
def indexes : List (String × String) := [
  ("idx_symbol_calls_lookup",
   "\n            CREATE INDEX idx_symbol_calls_lookup IF NOT EXISTS\n            FOR (s:Symbol) ON (s.repository_url, s.type, s.fq_name)\n        "),
  ("idx_symbol_type_lookup",
   "\n            CREATE INDEX idx_symbol_type_lookup IF NOT EXISTS\n            FOR (s:Symbol) ON (s.repository_url, s.type, s.fq_name, s.file_path)\n        "),
  ("idx_symbol_file_path",
   "\n            CREATE INDEX idx_symbol_file_path IF NOT EXISTS\n            FOR (s:Symbol) ON (s.repository_url, s.file_path)\n        "),
  ("idx_symbol_namespace",
   "\n            CREATE INDEX idx_symbol_namespace IF NOT EXISTS\n            FOR (s:Symbol) ON (s.namespace)\n        "),
  ("idx_namespace_repo_name",
   "\n            CREATE INDEX idx_namespace_repo_name IF NOT EXISTS\n            FOR (n:Namespace) ON (n.repository_url, n.name)\n        "),
  ("idx_file_repo_path",
   "\n            CREATE INDEX idx_file_repo_path IF NOT EXISTS\n            FOR (f:File) ON (f.repository_url, f.path)\n        "),
  ("idx_repository_url",
   "\n            CREATE INDEX idx_repository_url IF NOT EXISTS\n            FOR (r:Repository) ON (r.url)\n        ")]

/-- Substring occurrence test over character lists. -/
def isInfixChars (pat : List Char) : List Char → Bool
  | [] => pat.isPrefixOf []
  | c :: rest => pat.isPrefixOf (c :: rest) || isInfixChars pat rest

/-- Statement side of claim C7: a statement is syntactically a
`CREATE INDEX … IF NOT EXISTS` statement — after stripping leading
whitespace it begins with `CREATE INDEX ` and contains ` IF NOT EXISTS`. -/
def isCreateIndexIfNotExists (stmt : String) : Bool :=
  let cs := stmt.data.dropWhile Char.isWhitespace
  "CREATE INDEX ".data.isPrefixOf cs && isInfixChars " IF NOT EXISTS".data cs

/-- Modelled from the spec: the graph database (external to this
repository) executes a `CREATE INDEX <name> IF NOT EXISTS` statement by
adding `<name>` to the index catalog when absent and doing nothing when it
is already present (“Idempotence: … guarded by `IF NOT EXISTS`”).  The
catalog is the list of index names in creation order. -/
def execCreateIfNotExists (catalog : List String) (name : String) :
    List String :=
  if name ∈ catalog then catalog else catalog ++ [name]

/-- The statement loop of `create_indexes` (`src/app/CreateIndexes.py`
lines 69–78): each `session.run(index_query)` may raise (modelled by the
oracle `failure`, indexed by statement position); the `try`/`except` prints
the error and continues with the next statement either way.  Returns the
final catalog and the per-statement success log (one entry per statement —
the loop always runs to the end of the list). -/
def createLoop (failure : Nat → Bool) (k : Nat) (catalog : List String) :
    List (String × String) → List String × List Bool
  | [] => (catalog, [])
  | (name, _stmt) :: rest =>
      if failure k then
        let r := createLoop failure (k + 1) catalog rest
        (r.1, false :: r.2)
      else
        let r := createLoop failure (k + 1)
          (execCreateIfNotExists catalog name) rest
        (r.1, true :: r.2)

/-- `create_indexes` from `src/app/CreateIndexes.py`, as its effect on the
index catalog: run the seven statements in order against the catalog,
catching and logging any per-statement failure. -/
def create_indexes (failure : Nat → Bool) (catalog : List String) :
    List String × List Bool :=
  createLoop failure 0 catalog indexes

end CreateIdx

/-! # Helper lemmas -/

namespace Sou

theorem methodRecords_no_type (σ : Nat → Nat) (c : String)
    (bs : List (Option String × String)) : ∀ k,
    (methodRecords σ k c bs).filter (fun r => r.type == SymbolType.TYPE) = [] := by
  induction bs with
  | nil => intro k; simp [methodRecords]
  | cons b rest ih => intro k; cases b; simp [methodRecords, ih]

theorem parseGo_typePairs (σ : Nat → Nat) (doc : List Elem) :
    ∀ (k : Nat) (p : Option Symbol),
    ((parseGo σ k p doc).filter (fun r => r.type == SymbolType.TYPE)).map
      (fun r => (r.name, r.comment)) =
    (match p with
     | some pr => pendingFate pr doc
     | none => []) ++ flushedTypePairs doc := by
  induction doc with
  | nil => intro k p; cases p <;> simp [parseGo, pendingFate, flushedTypePairs]
  | cons e rest ih =>
      intro k p
      cases e with
      | cls n inner =>
          have hmk : pendingFate (mkClassRecord σ k n inner) rest =
              (match rest.find? isBoundary with
               | some (Elem.comment cid cb) =>
                   [(extract_class_name n,
                     if pyEndsWith (extract_class_name cid) (extract_class_name n)
                     then pyStrip cb else "")]
               | _ => []) := by
            unfold pendingFate
            cases hf : rest.find? isBoundary with
            | none => simp
            | some b => cases b <;> simp [mkClassRecord]
          cases p with
          | none =>
              simp only [parseGo]
              rw [ih]
              simp [flushedTypePairs, hmk]
          | some pr =>
              simp only [parseGo]
              rw [ih]
              have hfate : pendingFate pr (Elem.cls n inner :: rest) = [] := by
                simp [pendingFate, List.find?, isBoundary]
              simp [flushedTypePairs, hmk, hfate]
      | comment cid cb =>
          cases p with
          | none =>
              simp only [parseGo]
              rw [ih]
              simp [flushedTypePairs]
          | some pr =>
              simp only [parseGo]
              have hfate : pendingFate pr (Elem.comment cid cb :: rest) =
                  if pr.type = SymbolType.TYPE then
                    [(pr.name, if pyEndsWith (extract_class_name cid) pr.name
                      then pyStrip cb else pr.comment)]
                  else [] := by
                simp [pendingFate, List.find?, isBoundary]
              by_cases ht : pr.type = SymbolType.TYPE <;>
                by_cases hc : pyEndsWith (extract_class_name cid) pr.name <;>
                simp [hc, ht, List.filter_cons, ih, hfate, flushedTypePairs,
                  beq_iff_eq]
      | methods mcid bodies =>
          simp only [parseGo]
          rw [List.filter_append, methodRecords_no_type]
          simp only [List.nil_append]
          rw [ih]
          cases p with
          | none => simp [flushedTypePairs, pendingFate, List.find?, isBoundary]
          | some pr =>
              have hfate : pendingFate pr (Elem.methods mcid bodies :: rest) =
                  pendingFate pr rest := by
                simp [pendingFate, List.find?, isBoundary]
              simp [flushedTypePairs, hfate]

theorem methodRecords_props (σ : Nat → Nat) (c : String)
    (bs : List (Option String × String)) : ∀ k r, r ∈ methodRecords σ k c bs →
    r.type = SymbolType.METHOD ∧ r.comment = "" := by
  induction bs with
  | nil => intro k r hr; simp [methodRecords] at hr
  | cons b rest ih =>
      intro k r hr
      cases b
      simp only [methodRecords, List.mem_cons] at hr
      rcases hr with h | h
      · subst h; exact ⟨rfl, rfl⟩
      · exact ih _ _ h

theorem parseGo_record_invariant (σ : Nat → Nat) (doc : List Elem) :
    ∀ (k : Nat) (p : Option Symbol),
    (∀ q, p = some q → q.type = SymbolType.TYPE) →
    ∀ r ∈ parseGo σ k p doc,
    (r.type = SymbolType.TYPE ∨ r.type = SymbolType.METHOD) ∧
    (r.type = SymbolType.METHOD → r.comment = "") := by
  induction doc with
  | nil => intro k p _ r hr; simp [parseGo] at hr
  | cons e rest ih =>
      intro k p hp r hr
      cases e with
      | cls n inner =>
          exact ih _ _ (fun q hq => by cases hq; rfl) r hr
      | comment cid cb =>
          cases p with
          | none => exact ih _ _ (fun q hq => by cases hq) r hr
          | some pr =>
              simp only [parseGo, List.mem_cons] at hr
              rcases hr with h | h
              · have hty : pr.type = SymbolType.TYPE := hp pr rfl
                by_cases hc : pyEndsWith (extract_class_name cid) pr.name <;>
                  simp [hc] at h <;> subst h <;>
                  simp [hty]
              · exact ih _ _ (fun q hq => by cases hq) r h
      | methods mcid bodies =>
          simp only [parseGo, List.mem_append] at hr
          rcases hr with h | h
          · have := methodRecords_props σ (extract_class_name mcid) bodies k r h
            exact ⟨Or.inr this.1, fun _ => this.2⟩
          · exact ih _ _ hp r h

theorem methodRecords_updId (σ : Nat → Nat) (c : String)
    (bs : List (Option String × String)) : ∀ k,
    methodRecords σ k c bs = (methodRecords (fun n => n) k c bs).map (updId σ) := by
  induction bs with
  | nil => intro k; simp [methodRecords]
  | cons b rest ih => intro k; cases b; simp [methodRecords, updId, ih]

theorem parseGo_updId (σ : Nat → Nat) (doc : List Elem) :
    ∀ (k : Nat) (p : Option Symbol),
    parseGo σ k (p.map (updId σ)) doc =
      (parseGo (fun n => n) k p doc).map (updId σ) := by
  induction doc with
  | nil => intro k p; simp [parseGo]
  | cons e rest ih =>
      intro k p
      cases e with
      | cls n inner =>
          simp only [parseGo]
          have : mkClassRecord σ k n inner =
              updId σ (mkClassRecord (fun n => n) k n inner) := by
            simp [mkClassRecord, updId]
          rw [this]
          have h2 := ih (k + 1) (some (mkClassRecord (fun n => n) k n inner))
          simpa using h2
      | comment cid cb =>
          cases p with
          | none => simpa [parseGo] using ih k none
          | some pr =>
              simp only [parseGo, Option.map]
              have hname : (updId σ pr).name = pr.name := by simp [updId]
              rw [hname]
              by_cases hc : pyEndsWith (extract_class_name cid) pr.name <;>
                simp [hc, updId, List.map_cons] <;>
                simpa using ih k none
      | methods mcid bodies =>
          simp only [parseGo]
          rw [methodRecords_updId, List.map_append]
          congr 1
          exact ih (k + bodies.length) p

theorem parse_updId (σ : Nat → Nat) (doc : List Elem) :
    parse σ doc = (parse (fun n => n) doc).map (updId σ) := by
  have := parseGo_updId σ doc 0 none
  simpa [parse] using this

theorem methodRecords_names (σ : Nat → Nat) (c : String)
    (bs : List (Option String × String)) : ∀ k,
    ((methodRecords σ k c bs).filter
      (fun r => r.type == SymbolType.METHOD)).map Symbol.name =
    bs.map (fun b => c ++ "." ++ selStr b.1) := by
  induction bs with
  | nil => intro k; simp [methodRecords]
  | cons b rest ih => intro k; cases b; simp [methodRecords, ih]

theorem filterMap_compat (cid : String) (hcid : cid ≠ "")
    (bs : List (Option String × String))
    (hbs : bs.all (fun b =>
      match b.1 with
      | some s => s != ""
      | none => false) = true) :
    bs.filterMap (fun b =>
      match b.1 with
      | some sel => if cid ≠ "" ∧ sel ≠ "" then some (cid ++ "." ++ sel)
          else none
      | none => none) = bs.map (fun b => cid ++ "." ++ selStr b.1) := by
  induction bs with
  | nil => simp
  | cons b rest ih =>
      simp only [List.all_cons, Bool.and_eq_true] at hbs
      obtain ⟨hb, hrest⟩ := hbs
      cases hsel : b.1 with
      | none => rw [hsel] at hb; simp at hb
      | some s =>
          rw [hsel] at hb
          simp only [ne_eq, bne_iff_ne] at hb
          rw [List.filterMap_cons, List.map_cons, hsel, ih hrest]
          simp [hcid, hb, selStr]

theorem parseGo_methodNames_eq_metadata (σ : Nat → Nat) (doc : List Elem) :
    ∀ (k : Nat) (p : Option Symbol),
    (∀ q, p = some q → q.type = SymbolType.TYPE) →
    doc.all metadataCompatible = true →
    ((parseGo σ k p doc).filter
      (fun r => r.type == SymbolType.METHOD)).map Symbol.name =
    parse_metadata doc := by
  induction doc with
  | nil => intro k p _ _; simp [parseGo, parse_metadata]
  | cons e rest ih =>
      intro k p hp hcompat
      simp only [List.all_cons, Bool.and_eq_true] at hcompat
      obtain ⟨hce, hcr⟩ := hcompat
      cases e with
      | cls n inner =>
          simp only [parseGo, parse_metadata]
          exact ih _ _ (fun q hq => by cases hq; rfl) hcr
      | comment cid cb =>
          cases p with
          | none =>
              simp only [parseGo, parse_metadata]
              exact ih _ _ (fun q hq => by cases hq) hcr
          | some pr =>
              simp only [parseGo, parse_metadata]
              have hty : pr.type = SymbolType.TYPE := hp pr rfl
              have hhead : ∀ (x : Symbol),
                  x = (if pyEndsWith (extract_class_name cid) pr.name
                    then { pr with comment := pyStrip cb } else pr) →
                  (x.type == SymbolType.METHOD) = false := by
                intro x hx
                by_cases hc : pyEndsWith (extract_class_name cid) pr.name <;>
                  simp [hc] at hx <;> subst hx <;> simp [hty]
              rw [List.filter_cons]
              rw [hhead _ rfl]
              simp only [if_neg Bool.false_ne_true]
              exact ih _ _ (fun q hq => by cases hq) hcr
      | methods mcid bodies =>
          simp only [parseGo, parse_metadata]
          rw [List.filter_append, List.map_append, methodRecords_names]
          simp only [metadataCompatible, Bool.and_eq_true, beq_iff_eq,
            bne_iff_ne, ne_eq] at hce
          obtain ⟨⟨hex, hne⟩, hbs⟩ := hce
          rw [filterMap_compat mcid hne bodies hbs, hex]
          congr 1
          exact ih _ _ hp hcr

end Sou

theorem getD_map_of_lt {α β : Type} (f : α → β) (d : β) (d2 : α) :
    ∀ (l : List α) (i : Nat), i < l.length →
    (l.map f).getD i d = f (l.getD i d2) := by
  intro l
  induction l with
  | nil => intro i h; simp at h
  | cons a rest ih =>
      intro i h
      cases i with
      | zero => simp
      | succ j => simpa using ih j (by simpa using h)

/-! # Claim theorems -/

/-- **C1.** For every well-formed `.sou` input containing exactly one
`<class>` element (with a `<name>` child), followed by one `<comment>`
element whose `<class-id>` matches that class, followed by one `<methods>`
block with that class-id and two `<body selector=…>` entries, `parse`
yields exactly three records: first a `TYPE` record whose comment field
holds the comment's body text (whitespace-stripped, as the source does),
then the two `METHOD` records, in document order. -/
theorem claim1_one_class_comment_two_methods
    (σ : Nat → Nat) (n nb cid cb s1 t1 s2 t2 : String)
    (h : pyEndsWith (Sou.extract_class_name cid) (Sou.extract_class_name n) = true) :
    Sou.parse σ [Sou.Elem.cls n nb, Sou.Elem.comment cid cb,
      Sou.Elem.methods cid [(some s1, t1), (some s2, t2)]] =
    [{ name := Sou.extract_class_name n, type := Sou.SymbolType.TYPE,
       body := pyStrip nb, comment := pyStrip cb, id := σ 0 },
     { name := Sou.extract_class_name cid ++ "." ++ s1,
       type := Sou.SymbolType.METHOD, body := pyStrip t1, comment := "",
       id := σ 1 },
     { name := Sou.extract_class_name cid ++ "." ++ s2,
       type := Sou.SymbolType.METHOD, body := pyStrip t2, comment := "",
       id := σ 2 }] := by
  simp [Sou.parse, Sou.parseGo, Sou.mkClassRecord, Sou.methodRecords,
    Sou.selStr, h]

/-- Witness for C1 at a concrete input: class `Pkg.Foo`, a matching comment,
and a methods block with selectors `m1`, `m2`. -/
theorem claim1_witness :
    pyEndsWith (Sou.extract_class_name "Pkg.Foo")
      (Sou.extract_class_name "Pkg.Foo") = true ∧
    Sou.parse (fun n => n) [Sou.Elem.cls "Pkg.Foo" "<x/>",
      Sou.Elem.comment "Pkg.Foo" " doc ",
      Sou.Elem.methods "Pkg.Foo" [(some "m1", "b1"), (some "m2", "b2")]] =
    [{ name := Sou.extract_class_name "Pkg.Foo", type := Sou.SymbolType.TYPE,
       body := pyStrip "<x/>", comment := pyStrip " doc ", id := 0 },
     { name := Sou.extract_class_name "Pkg.Foo" ++ "." ++ "m1",
       type := Sou.SymbolType.METHOD, body := pyStrip "b1", comment := "",
       id := 1 },
     { name := Sou.extract_class_name "Pkg.Foo" ++ "." ++ "m2",
       type := Sou.SymbolType.METHOD, body := pyStrip "b2", comment := "",
       id := 2 }] :=
  ⟨by decide,
   claim1_one_class_comment_two_methods (fun n => n) "Pkg.Foo" "<x/>"
     "Pkg.Foo" " doc " "m1" "b1" "m2" "b2" (by decide)⟩

/-- **C2, counterexample.** The claim says a class with no matching comment
is still emitted when it is supplanted by the next `<class>` element.  On
the document `class A; class B; comment for B` the parser emits only `B`'s
record: `A`'s pending record is overwritten when `B`'s class ends and no
record named `A` is ever yielded. -/
theorem claim2_counterexample :
    (Sou.parse (fun n => n) [Sou.Elem.cls "A" "", Sou.Elem.cls "B" "",
        Sou.Elem.comment "B" "c"]).map Sou.Symbol.name = ["B"] ∧
    "A" ∉ (Sou.parse (fun n => n) [Sou.Elem.cls "A" "", Sou.Elem.cls "B" "",
        Sou.Elem.comment "B" "c"]).map Sou.Symbol.name := by decide

/-- **C2, amended.** For every `.sou` input and id supply, the `TYPE`
records `parse` yields are characterized by `flushedTypePairs`: a class
record is emitted (exactly once, in document order) precisely when the
first following `class`/`comment` boundary is a `comment` end event —
with the comment merged in when its class-id's last dot-component ends
with the class name and an empty comment otherwise — while a class whose
next boundary is another class, or which is still pending at the end of
the input, is silently dropped.  (`methods` blocks leave the pending class
untouched.) -/
theorem claim2_class_emission_characterization (σ : Nat → Nat)
    (doc : List Sou.Elem) :
    ((Sou.parse σ doc).filter
      (fun r => r.type == Sou.SymbolType.TYPE)).map
      (fun r => (r.name, r.comment)) = Sou.flushedTypePairs doc := by
  have := Sou.parseGo_typePairs σ doc 0 none
  simpa [Sou.parse] using this

/-- **C5, counterexample.** The claim says `parse` and `parse_metadata`
yield the same set of fully-qualified method names.  On a methods block
with the dotted class-id `A.B` and selector `s`, `parse` yields the name
`B.s` (it applies `extract_class_name`) while `parse_metadata` returns
`{A.B.s}` (it uses the raw class-id), so the sets differ. -/
theorem claim5_counterexample :
    "B.s" ∈ ((Sou.parse (fun n => n)
        [Sou.Elem.methods "A.B" [(some "s", "x")]]).filter
      (fun r => r.type == Sou.SymbolType.METHOD)).map Sou.Symbol.name ∧
    "B.s" ∉ Sou.parse_metadata [Sou.Elem.methods "A.B" [(some "s", "x")]] := by
  decide

/-- **C5, amended.** For every `.sou` input in which every `methods`
element's class-id equals its own last dot-component (contains no dot) and
is nonempty, and every `<body>` entry carries a nonempty `selector`
attribute, the set of name fields of the `METHOD` records yielded by
`parse` equals the set returned by `parse_metadata`; on such inputs both
compute `<class-id>.<selector>` for every entry.  (In general they differ:
`parse` uses `extract_class_name(class-id)`, `parse_metadata` the raw
class-id, and `parse` renders a missing selector as `None` where
`parse_metadata` skips it.) -/
theorem claim5_method_name_sets_agree (σ : Nat → Nat) (doc : List Sou.Elem)
    (h : doc.all Sou.metadataCompatible = true) : ∀ x,
    x ∈ ((Sou.parse σ doc).filter
      (fun r => r.type == Sou.SymbolType.METHOD)).map Sou.Symbol.name ↔
    x ∈ Sou.parse_metadata doc := by
  intro x
  rw [show ((Sou.parse σ doc).filter
      (fun r => r.type == Sou.SymbolType.METHOD)).map Sou.Symbol.name =
      Sou.parse_metadata doc from
    Sou.parseGo_methodNames_eq_metadata σ doc 0 none (fun q hq => by cases hq) h]

/-- Witness for C5 at a concrete input: one methods block with dot-free
class-id `A` and one entry with selector `s`. -/
theorem claim5_witness :
    ([Sou.Elem.methods "A" [(some "s", "x")]].all Sou.metadataCompatible
      = true) ∧
    ("A.s" ∈ ((Sou.parse (fun n => n)
        [Sou.Elem.methods "A" [(some "s", "x")]]).filter
      (fun r => r.type == Sou.SymbolType.METHOD)).map Sou.Symbol.name ↔
    "A.s" ∈ Sou.parse_metadata [Sou.Elem.methods "A" [(some "s", "x")]]) :=
  ⟨by decide,
   claim5_method_name_sets_agree (fun n => n)
     [Sou.Elem.methods "A" [(some "s", "x")]] (by decide) "A.s"⟩

/-- **C8.** Ids are drawn fresh from the uuid supply and never derived from
record content: for any two supplies that never agree (two runs of the
random source), the two runs of `parse` on the same document agree on every
field of every record except `id`, and the ids differ at every position. -/
theorem claim8_ids_fresh_per_parse (σ1 σ2 : Nat → Nat) (doc : List Sou.Elem)
    (h : ∀ n, σ1 n ≠ σ2 n) :
    (Sou.parse σ1 doc).map Sou.eraseId = (Sou.parse σ2 doc).map Sou.eraseId ∧
    ∀ i, i < (Sou.parse σ1 doc).length →
      ((Sou.parse σ1 doc).getD i default).id ≠
        ((Sou.parse σ2 doc).getD i default).id := by
  have h1 := Sou.parse_updId σ1 doc
  have h2 := Sou.parse_updId σ2 doc
  constructor
  · rw [h1, h2, List.map_map, List.map_map]
    have : Sou.eraseId ∘ Sou.updId σ1 = Sou.eraseId ∘ Sou.updId σ2 := by
      funext r; simp [Sou.eraseId, Sou.updId]
    rw [this]
  · intro i hi
    have hlen : i < (Sou.parse (fun n => n) doc).length := by
      rw [h1] at hi; simpa using hi
    rw [h1, h2, getD_map_of_lt (Sou.updId σ1) default default _ i hlen,
      getD_map_of_lt (Sou.updId σ2) default default _ i hlen]
    simp only [Sou.updId]
    exact h _

/-- Witness for C8: two concrete supplies that never agree, on a document
with one class and its comment. -/
theorem claim8_witness :
    (Sou.parse (fun n => n) [Sou.Elem.cls "A" "x",
        Sou.Elem.comment "A" "c"]).map Sou.eraseId =
      (Sou.parse (fun n => n + 1) [Sou.Elem.cls "A" "x",
        Sou.Elem.comment "A" "c"]).map Sou.eraseId ∧
    ((Sou.parse (fun n => n) [Sou.Elem.cls "A" "x",
        Sou.Elem.comment "A" "c"]).getD 0 default).id ≠
      ((Sou.parse (fun n => n + 1) [Sou.Elem.cls "A" "x",
        Sou.Elem.comment "A" "c"]).getD 0 default).id :=
  have h := claim8_ids_fresh_per_parse (fun n => n) (fun n => n + 1)
    [Sou.Elem.cls "A" "x", Sou.Elem.comment "A" "c"] (fun n => by simp)
  ⟨h.1, h.2 0 (by decide)⟩

/-- **C10.** Every record yielded by `parse` has exactly the five fields
`name`, `type`, `body`, `comment`, `id` (the `Symbol` structure, mirroring
the two dict literals in the source); its type is `TYPE` or `METHOD`; and
every `METHOD` record's comment field is the empty string. -/
theorem claim10_record_invariant (σ : Nat → Nat) (doc : List Sou.Elem) :
    ∀ r ∈ Sou.parse σ doc,
    (r.type = Sou.SymbolType.TYPE ∨ r.type = Sou.SymbolType.METHOD) ∧
    (r.type = Sou.SymbolType.METHOD → r.comment = "") :=
  Sou.parseGo_record_invariant σ doc 0 none (fun q hq => by cases hq)

/-- Witness for C10 at a concrete input: the `METHOD` record yielded for a
methods block is in the output and satisfies the invariant. -/
theorem claim10_witness :
    ({ name := "A.m", type := Sou.SymbolType.METHOD, body := "",
       comment := "", id := 0 } : Sou.Symbol) ∈
      Sou.parse (fun n => n) [Sou.Elem.methods "A" [(some "m", "")]] ∧
    ((Sou.SymbolType.METHOD = Sou.SymbolType.TYPE ∨
      Sou.SymbolType.METHOD = Sou.SymbolType.METHOD) ∧
     (Sou.SymbolType.METHOD = Sou.SymbolType.METHOD → "" = "")) :=
  ⟨by decide,
   claim10_record_invariant (fun n => n) [Sou.Elem.methods "A" [(some "m", "")]]
     { name := "A.m", type := Sou.SymbolType.METHOD, body := "",
       comment := "", id := 0 } (by decide)⟩

namespace CreateIdx

theorem createLoop_log_length (f : Nat → Bool) :
    ∀ (stmts : List (String × String)) (k : Nat) (c : List String),
    (createLoop f k c stmts).2.length = stmts.length := by
  intro stmts
  induction stmts with
  | nil => intro k c; simp [createLoop]
  | cons p rest ih =>
      intro k c
      cases p
      by_cases hf : f k <;> simp [createLoop, hf, ih]

theorem exec_nodup (c : List String) (n : String) (h : c.Nodup) :
    (execCreateIfNotExists c n).Nodup := by
  unfold execCreateIfNotExists
  by_cases hm : n ∈ c
  · simpa [hm]
  · simp [hm, List.nodup_append, h]

theorem exec_mem_mono (c : List String) (n x : String) (h : x ∈ c) :
    x ∈ execCreateIfNotExists c n := by
  unfold execCreateIfNotExists
  by_cases hm : n ∈ c <;> simp [hm, h]

theorem createLoop_nodup (f : Nat → Bool) :
    ∀ (stmts : List (String × String)) (k : Nat) (c : List String),
    c.Nodup → (createLoop f k c stmts).1.Nodup := by
  intro stmts
  induction stmts with
  | nil => intro k c h; simpa [createLoop]
  | cons p rest ih =>
      intro k c h
      cases p
      by_cases hf : f k <;> simp [createLoop, hf]
      · exact ih _ _ h
      · exact ih _ _ (exec_nodup _ _ h)

theorem createLoop_mem_mono (f : Nat → Bool) :
    ∀ (stmts : List (String × String)) (k : Nat) (c : List String) (x : String),
    x ∈ c → x ∈ (createLoop f k c stmts).1 := by
  intro stmts
  induction stmts with
  | nil => intro k c x h; simpa [createLoop]
  | cons p rest ih =>
      intro k c x h
      cases p
      by_cases hf : f k <;> simp [createLoop, hf]
      · exact ih _ _ _ h
      · exact ih _ _ _ (exec_mem_mono _ _ _ h)

theorem createLoop_adds :
    ∀ (stmts : List (String × String)) (k : Nat) (c : List String)
      (nm s : String), (nm, s) ∈ stmts →
    nm ∈ (createLoop (fun _ => false) k c stmts).1 := by
  intro stmts
  induction stmts with
  | nil => intro k c nm s h; simp at h
  | cons p rest ih =>
      intro k c nm s h
      cases p with
      | mk pn ps =>
          simp only [List.mem_cons] at h
          rcases h with h | h
          · injection h with h1 h2
            subst h1
            simp only [createLoop]
            apply createLoop_mem_mono
            unfold execCreateIfNotExists
            by_cases hm : nm ∈ c <;> simp [hm]
          · simp only [createLoop]
            exact ih _ _ _ _ h

theorem createLoop_noop :
    ∀ (stmts : List (String × String)) (k : Nat) (c : List String),
    (∀ p ∈ stmts, p.1 ∈ c) →
    (createLoop (fun _ => false) k c stmts).1 = c := by
  intro stmts
  induction stmts with
  | nil => intro k c _; simp [createLoop]
  | cons p rest ih =>
      intro k c h
      cases p with
      | mk pn ps =>
          simp only [createLoop]
          have hmem : pn ∈ c := h (pn, ps) (List.mem_cons_self _ _)
          have hexec : execCreateIfNotExists c pn = c := by
            simp [execCreateIfNotExists, hmem]
          rw [hexec]
          exact ih _ _ (fun q hq => h q (List.mem_cons_of_mem _ hq))

end CreateIdx

/-- **C7.** The seven fixed schema statements are all
`CREATE INDEX … IF NOT EXISTS` statements; the statement loop never lets a
per-statement failure escape (it logs one outcome per statement and always
reaches the end of the list, under any failure pattern of the database);
running `create_indexes` twice leaves the catalog without duplicate
entries, and with no failures the second run changes nothing. -/
theorem claim7_create_indexes_idempotent :
    (CreateIdx.indexes.length = 7 ∧
     CreateIdx.indexes.all (fun p => CreateIdx.isCreateIndexIfNotExists p.2)
       = true) ∧
    (∀ (f1 f2 : Nat → Bool) (catalog : List String), catalog.Nodup →
      (CreateIdx.create_indexes f1 catalog).2.length = 7 ∧
      (CreateIdx.create_indexes f2
        (CreateIdx.create_indexes f1 catalog).1).2.length = 7 ∧
      (CreateIdx.create_indexes f2
        (CreateIdx.create_indexes f1 catalog).1).1.Nodup) ∧
    (∀ catalog : List String,
      (CreateIdx.create_indexes (fun _ => false)
        (CreateIdx.create_indexes (fun _ => false) catalog).1).1 =
      (CreateIdx.create_indexes (fun _ => false) catalog).1) := by
  refine ⟨by decide, ?_, ?_⟩
  · intro f1 f2 catalog hnd
    refine ⟨CreateIdx.createLoop_log_length f1 _ _ _,
      CreateIdx.createLoop_log_length f2 _ _ _, ?_⟩
    exact CreateIdx.createLoop_nodup f2 _ _ _
      (CreateIdx.createLoop_nodup f1 _ _ _ hnd)
  · intro catalog
    apply CreateIdx.createLoop_noop
    intro p hp
    exact CreateIdx.createLoop_adds _ _ _ _ p.2 (by simpa using hp)

/-- Witness for C7: starting from the empty catalog with no failures, both
runs log seven outcomes, the result has no duplicates, and the second run
is a no-op. -/
theorem claim7_witness :
    (CreateIdx.create_indexes (fun _ => false) []).2.length = 7 ∧
    (CreateIdx.create_indexes (fun _ => false)
      (CreateIdx.create_indexes (fun _ => false) []).1).1.Nodup ∧
    (CreateIdx.create_indexes (fun _ => false)
      (CreateIdx.create_indexes (fun _ => false) []).1).1 =
      (CreateIdx.create_indexes (fun _ => false) []).1 :=
  have h := claim7_create_indexes_idempotent
  ⟨(h.2.1 (fun _ => false) (fun _ => false) [] (by simp)).1,
   (h.2.1 (fun _ => false) (fun _ => false) [] (by simp)).2.2,
   h.2.2 []⟩

/-- **C6.** Both truncation variants apply exactly three tiers in order to
the assembled truncated content — the strict parse, the recovering parse,
then `balance_xml_tags` — and each later tier's result is returned exactly
when every earlier tier raised; when the strict parse succeeds its result
is returned unchanged. -/
theorem claim6_three_tier_fallback :
    (∀ (sp rp : String → Option String) (fl : List String) (ml : Nat),
      (∀ s, sp (String.join (fl.take ml)) = some s →
        TruncOld.truncate_xml_to_lines sp rp fl ml = s) ∧
      (sp (String.join (fl.take ml)) = none →
        ∀ s, rp (String.join (fl.take ml)) = some s →
          TruncOld.truncate_xml_to_lines sp rp fl ml = s) ∧
      (sp (String.join (fl.take ml)) = none →
        rp (String.join (fl.take ml)) = none →
        TruncOld.truncate_xml_to_lines sp rp fl ml =
          Trunc.balance_xml_tags (String.join (fl.take ml)))) ∧
    (∀ (sp rp : String → Option String) (lines : List TruncNew.SLine)
      (ml : Nat) (prefixes : List String),
      (∀ s, sp (String.join ((TruncNew.truncateSelect lines ml prefixes).map
          (fun i => (lines.map TruncNew.SLine.raw).getD i ""))) = some s →
        TruncNew.truncate_xml_to_lines sp rp lines ml prefixes = s) ∧
      (sp (String.join ((TruncNew.truncateSelect lines ml prefixes).map
          (fun i => (lines.map TruncNew.SLine.raw).getD i ""))) = none →
        ∀ s, rp (String.join ((TruncNew.truncateSelect lines ml prefixes).map
          (fun i => (lines.map TruncNew.SLine.raw).getD i ""))) = some s →
        TruncNew.truncate_xml_to_lines sp rp lines ml prefixes = s) ∧
      (sp (String.join ((TruncNew.truncateSelect lines ml prefixes).map
          (fun i => (lines.map TruncNew.SLine.raw).getD i ""))) = none →
        rp (String.join ((TruncNew.truncateSelect lines ml prefixes).map
          (fun i => (lines.map TruncNew.SLine.raw).getD i ""))) = none →
        TruncNew.truncate_xml_to_lines sp rp lines ml prefixes =
          Trunc.balance_xml_tags (String.join
            ((TruncNew.truncateSelect lines ml prefixes).map
              (fun i => (lines.map TruncNew.SLine.raw).getD i ""))))) := by
  constructor
  · intro sp rp fl ml
    refine ⟨fun s hs => ?_, fun hn s hs => ?_, fun hn hr => ?_⟩
    · simp [TruncOld.truncate_xml_to_lines, hs]
    · simp [TruncOld.truncate_xml_to_lines, hn, hs]
    · simp [TruncOld.truncate_xml_to_lines, hn, hr]
  · intro sp rp lines ml prefixes
    refine ⟨fun s hs => ?_, fun hn s hs => ?_, fun hn hr => ?_⟩
    · simp only [TruncNew.truncate_xml_to_lines, hs]
    · simp only [TruncNew.truncate_xml_to_lines, hn, hs]
    · simp only [TruncNew.truncate_xml_to_lines, hn, hr]

/-- Witness for C6: on a one-line file, a succeeding strict parse is
returned as is; a failing strict parse falls through to a succeeding
recovery parse; two failures fall through to `balance_xml_tags` — for both
variants. -/
theorem claim6_witness :
    TruncOld.truncate_xml_to_lines (fun _ => some "S") (fun _ => none)
      ["<a>\n"] 1 = "S" ∧
    TruncOld.truncate_xml_to_lines (fun _ => none) (fun _ => some "R")
      ["<a>\n"] 1 = "R" ∧
    TruncOld.truncate_xml_to_lines (fun _ => none) (fun _ => none)
      ["<a>\n"] 1 =
      Trunc.balance_xml_tags (String.join (["<a>\n"].take 1)) ∧
    TruncNew.truncate_xml_to_lines (fun _ => some "S") (fun _ => none)
      [{ raw := "<a>\n", startsTag := true }] 1 [] = "S" ∧
    TruncNew.truncate_xml_to_lines (fun _ => none) (fun _ => none)
      [{ raw := "<a>\n", startsTag := true }] 1 [] =
      Trunc.balance_xml_tags (String.join
        ((TruncNew.truncateSelect [{ raw := "<a>\n", startsTag := true }] 1
          []).map (fun i =>
            (([{ raw := "<a>\n", startsTag := true }] :
              List TruncNew.SLine).map TruncNew.SLine.raw).getD i ""))) :=
  ⟨(claim6_three_tier_fallback.1 (fun _ => some "S") (fun _ => none)
      ["<a>\n"] 1).1 "S" rfl,
   (claim6_three_tier_fallback.1 (fun _ => none) (fun _ => some "R")
      ["<a>\n"] 1).2.1 rfl "R" rfl,
   (claim6_three_tier_fallback.1 (fun _ => none) (fun _ => none)
      ["<a>\n"] 1).2.2 rfl rfl,
   (claim6_three_tier_fallback.2 (fun _ => some "S") (fun _ => none)
      [{ raw := "<a>\n", startsTag := true }] 1 []).1 "S" rfl,
   (claim6_three_tier_fallback.2 (fun _ => none) (fun _ => none)
      [{ raw := "<a>\n", startsTag := true }] 1 []).2.2 rfl rfl⟩

theorem splitOnCharL_ne_nil (sep : Char) (l : List Char) :
    splitOnCharL sep l ≠ [] := by
  cases l with
  | nil => simp [splitOnCharL]
  | cons c rest =>
      simp only [splitOnCharL]
      by_cases h : c = sep
      · simp [h]
      · simp only [if_neg h]
        cases hs : splitOnCharL sep rest <;> simp

theorem intercalateNL_splitOnNL : ∀ l : List Char,
    Trunc.intercalateNL (splitOnCharL '\n' l) = l := by
  intro l
  induction l with
  | nil => simp [splitOnCharL, Trunc.intercalateNL]
  | cons c rest ih =>
      by_cases h : c = '\n'
      · subst h
        simp only [splitOnCharL, if_pos rfl]
        cases hs : splitOnCharL '\n' rest with
        | nil => exact absurd hs (splitOnCharL_ne_nil _ _)
        | cons a as =>
            rw [hs] at ih
            cases as with
            | nil => simpa [Trunc.intercalateNL] using ih
            | cons b bs => simpa [Trunc.intercalateNL] using ih
      · simp only [splitOnCharL, if_neg h]
        cases hs : splitOnCharL '\n' rest with
        | nil => exact absurd hs (splitOnCharL_ne_nil _ _)
        | cons a as =>
            rw [hs] at ih
            cases as with
            | nil => simp [Trunc.intercalateNL] at ih ⊢; rw [ih]
            | cons b bs =>
                simp [Trunc.intercalateNL] at ih ⊢
                exact ih

theorem intercalateNL_append (xs ys : List (List Char)) (hx : xs ≠ [])
    (hy : ys ≠ []) :
    Trunc.intercalateNL (xs ++ ys) =
      Trunc.intercalateNL xs ++ '\n' :: Trunc.intercalateNL ys := by
  induction xs with
  | nil => exact absurd rfl hx
  | cons x xs2 ih =>
      cases xs2 with
      | nil =>
          cases ys with
          | nil => exact absurd rfl hy
          | cons y ys2 => simp [Trunc.intercalateNL]
      | cons x2 xs3 =>
          have h2 := ih (by simp)
          rw [List.cons_append] at h2
          simp only [List.cons_append, Trunc.intercalateNL, List.append_eq]
          rw [h2]
          simp

theorem intercalateNL_cons_flat (ys : List (List Char)) : ∀ (x : List Char),
    Trunc.intercalateNL (x :: ys) =
      x ++ (ys.map (fun l => '\n' :: l)).flatten := by
  induction ys with
  | nil => intro x; simp [Trunc.intercalateNL]
  | cons y ys2 ih => intro x; simp [Trunc.intercalateNL, ih]

theorem string_append_data (s : String) (l : List Char) :
    s ++ (⟨l⟩ : String) = ⟨s.data ++ l⟩ := by
  cases s; rfl

/-- **C9.** `balance_xml_tags` only appends: for every input string the
result is the input itself, or the input followed exclusively by the one
comment line and generated `</tag>` closing tags (each piece preceded by
the `'\n'` join separator); every input line therefore reappears unchanged,
in order, at the start of the output. -/
theorem claim9_balance_only_appends (s : String) :
    Trunc.balance_xml_tags s = s ∨
    ∃ ts : List String, ts ≠ [] ∧
      Trunc.balance_xml_tags s = s ++
        (⟨'\n' :: Trunc.commentLineChars ++
          (ts.map (fun t => '\n' :: Trunc.closerChars t)).flatten⟩ : String) := by
  by_cases hE : ((splitOnCharL '\n' s.data).foldl Trunc.processLine []).isEmpty = true
  · left
    have hbc : Trunc.balanceChars s.data =
        Trunc.intercalateNL (splitOnCharL '\n' s.data) := by
      simp only [Trunc.balanceChars, hE, if_true]
    show (⟨Trunc.balanceChars s.data⟩ : String) = s
    rw [hbc, intercalateNL_splitOnNL]
  · right
    refine ⟨(splitOnCharL '\n' s.data).foldl Trunc.processLine [], ?_, ?_⟩
    · intro hnil
      rw [hnil] at hE
      simp at hE
    · have hbc : Trunc.balanceChars s.data =
          Trunc.intercalateNL (splitOnCharL '\n' s.data ++
            Trunc.commentLineChars ::
              ((splitOnCharL '\n' s.data).foldl Trunc.processLine []).map
                Trunc.closerChars) := by
        simp only [Trunc.balanceChars, hE, if_false]
        simp
      rw [intercalateNL_append _ _ (splitOnCharL_ne_nil _ _) (by simp),
        intercalateNL_splitOnNL, intercalateNL_cons_flat, List.map_map] at hbc
      show (⟨Trunc.balanceChars s.data⟩ : String) = _
      rw [hbc, string_append_data]
      rfl

namespace TruncNew

theorem addIndices_mono (max_lines : Nat) :
    ∀ (idxs : List Nat) (out : List Nat) (x : Nat), x ∈ out →
    x ∈ addIndices max_lines out idxs := by
  intro idxs
  induction idxs with
  | nil => intro out x h; simpa [addIndices]
  | cons i rest ih =>
      intro out x h
      simp only [addIndices]
      by_cases hm : i ∈ out
      · simp only [if_pos hm]
        exact ih _ _ h
      · simp only [if_neg hm]
        by_cases hlen : max_lines ≤ (out ++ [i]).length
        · simp only [if_pos hlen]
          exact List.mem_append_left _ h
        · simp only [if_neg hlen]
          exact ih _ _ (List.mem_append_left _ h)

theorem addIndices_spec (max_lines : Nat) :
    ∀ (idxs : List Nat) (out : List Nat),
    out.length + idxs.length ≤ max_lines →
    (∀ i ∈ idxs, i ∈ addIndices max_lines out idxs) ∧
    (addIndices max_lines out idxs).length ≤ out.length + idxs.length := by
  intro idxs
  induction idxs with
  | nil => intro out _; simp [addIndices]
  | cons i rest ih =>
      intro out hb
      simp only [List.length_cons] at hb
      simp only [addIndices]
      by_cases hm : i ∈ out
      · simp only [if_pos hm]
        obtain ⟨h2a, h2b⟩ := ih out (by omega)
        refine ⟨?_, by simp only [List.length_cons]; omega⟩
        intro j hj
        rcases List.mem_cons.mp hj with h | h
        · subst h; exact addIndices_mono _ _ _ _ hm
        · exact h2a j h
      · simp only [if_neg hm]
        by_cases hlen : max_lines ≤ (out ++ [i]).length
        · simp only [if_pos hlen]
          simp only [List.length_append, List.length_cons, List.length_nil] at hlen
          have hrest : rest = [] := by
            cases rest with
            | nil => rfl
            | cons a as => simp at hb; omega
          subst hrest
          refine ⟨?_, by simp⟩
          intro j hj
          simp only [List.mem_cons] at hj
          rcases hj with h | h
          · subst h; simp
          · simp at h
        · simp only [if_neg hlen]
          obtain ⟨h2a, h2b⟩ := ih (out ++ [i]) (by simp; omega)
          refine ⟨?_, by simp only [List.length_cons]; simp at h2b; omega⟩
          intro j hj
          rcases List.mem_cons.mp hj with h | h
          · subst h
            exact addIndices_mono _ _ _ _ (by simp)
          · exact h2a j h

theorem addRanges_mono (max_lines : Nat) :
    ∀ (ranges : List (Nat × Nat)) (out : List Nat) (x : Nat), x ∈ out →
    x ∈ addRanges max_lines out ranges := by
  intro ranges
  induction ranges with
  | nil => intro out x h; simpa [addRanges]
  | cons r rest ih =>
      intro out x h
      cases r with
      | mk s e =>
          simp only [addRanges]
          by_cases hlen : max_lines ≤ out.length
          · simp only [if_pos hlen]; exact h
          · simp only [if_neg hlen]
            exact ih _ _ (addIndices_mono _ _ _ _ h)

theorem addRanges_spec (max_lines : Nat) :
    ∀ (ranges : List (Nat × Nat)) (out : List Nat),
    out.length + (ranges.map (fun r => r.2 + 1 - r.1)).sum ≤ max_lines →
    (∀ r ∈ ranges, r.1 ≤ r.2) →
    (∀ r ∈ ranges, ∀ i, r.1 ≤ i → i ≤ r.2 →
      i ∈ addRanges max_lines out ranges) ∧
    (addRanges max_lines out ranges).length ≤
      out.length + (ranges.map (fun r => r.2 + 1 - r.1)).sum := by
  intro ranges
  induction ranges with
  | nil => intro out _ _; simp [addRanges]
  | cons r rest ih =>
      intro out hb hne
      cases r with
      | mk s e =>
          have hse : s ≤ e := (hne (s, e) (List.mem_cons_self _ _))
          simp only [List.map_cons, List.sum_cons] at hb
          have hout : out.length < max_lines := by omega
          simp only [addRanges, if_neg (Nat.not_le.mpr hout)]
          obtain ⟨hIa, hIb⟩ := addIndices_spec max_lines
            (List.range' s (e + 1 - s)) out
            (by simp only [List.length_range']; omega)
          obtain ⟨hRa, hRb⟩ := ih (addIndices max_lines out
            (List.range' s (e + 1 - s)))
            (by simp only [List.length_range'] at hIb; omega)
            (fun q hq => hne q (List.mem_cons_of_mem _ hq))
          refine ⟨?_, by
            simp only [List.map_cons, List.sum_cons]
            simp only [List.length_range'] at hIb
            omega⟩
          intro q hq i hi1 hi2
          rcases List.mem_cons.mp hq with h | h
          · subst h
            apply addRanges_mono
            apply hIa
            rw [List.mem_range'_1]
            exact ⟨hi1, by omega⟩
          · exact hRa q h i hi1 hi2

theorem addOther_mono (max_lines : Nat) :
    ∀ (idxs : List Nat) (out : List Nat) (x : Nat), x ∈ out →
    x ∈ addOther max_lines out idxs := by
  intro idxs
  induction idxs with
  | nil => intro out x h; simpa [addOther]
  | cons i rest ih =>
      intro out x h
      simp only [addOther]
      by_cases hlen : max_lines ≤ out.length
      · simp only [if_pos hlen]; exact h
      · simp only [if_neg hlen]
        by_cases hm : i ∈ out
        · simp only [if_pos hm]; exact ih _ _ h
        · simp only [if_neg hm]
          exact ih _ _ (List.mem_append_left _ h)

end TruncNew

/-- **C3, amended.** Every line of every priority range — each `<class>`
whose captured name starts with one of the priority prefixes and each
`<methods>` block whose class-id names such a class — is included in the
selected output, regardless of its position in the file, provided the
header plus the total length of the priority ranges fits within
`max_lines`; without that proviso the priority content is clipped at
`max_lines` (see the counterexample). -/
theorem claim3_priority_content_included (lines : List TruncNew.SLine) (max_lines : Nat)
    (prefixes : List String)
    (h1 : TruncNew.headerEnd lines + 1 +
      ((TruncNew.priorityRanges prefixes (TruncNew.findRanges lines 0).1
        (TruncNew.findRanges lines 0).2).map (fun r => r.2 + 1 - r.1)).sum ≤
      max_lines)
    (h2 : ∀ r ∈ TruncNew.priorityRanges prefixes
        (TruncNew.findRanges lines 0).1 (TruncNew.findRanges lines 0).2,
      r.1 ≤ r.2) :
    ∀ r ∈ TruncNew.priorityRanges prefixes (TruncNew.findRanges lines 0).1
        (TruncNew.findRanges lines 0).2,
    ∀ i, r.1 ≤ i → i ≤ r.2 →
    i ∈ TruncNew.truncateSelect lines max_lines prefixes := by
  intro r hr i hi1 hi2
  have hb : (List.range (TruncNew.headerEnd lines + 1)).length +
      ((TruncNew.priorityRanges prefixes (TruncNew.findRanges lines 0).1
        (TruncNew.findRanges lines 0).2).map (fun r => r.2 + 1 - r.1)).sum ≤
      max_lines := by simpa using h1
  have hmem := (TruncNew.addRanges_spec max_lines _ _ hb h2).1 r hr i hi1 hi2
  simp only [TruncNew.truncateSelect]
  exact TruncNew.addOther_mono _ _ _ _ hmem

/-- **C3, counterexample.** The claim says every `Foo…` class appears
complete in the output for `max_lines = 50`.  On a file whose `FooBig`
class spans lines 1–63 (60 body lines), the selection stops at 50 lines
and the class's closing line 63 is not selected, so the class is cut
mid-element. -/
theorem claim3_counterexample :
    (63 : Nat) ∉ TruncNew.truncateSelect
      ([{ startsTag := true, raw := "<source>\n" },
        { isClassOpen := true, startsTag := true, raw := "<class>\n" },
        { nameText := some "FooBig", startsTag := true,
          raw := "<name>FooBig</name>\n" }] ++
       List.replicate 60 ({ raw := "x\n" } : TruncNew.SLine) ++
       [{ hasClassClose := true, raw := "</class>\n" }]) 50 ["Foo"] := by
  decide

/-- Witness for C3 (amended) at a concrete four-line file whose `FooX`
class occupies lines 1–3: the budget hypothesis holds for
`max_lines = 20` and the class's closing line 3 is selected. -/
theorem claim3_witness :
    (TruncNew.headerEnd [⟨false, none, false, false, none, false, true, false, "<source>\n"⟩,
        ⟨true, none, false, false, none, false, true, false, "<class>\n"⟩,
        ⟨false, some "FooX", false, false, none, false, true, false, "<name>FooX</name>\n"⟩,
        ⟨false, none, true, false, none, false, false, false, "</class>\n"⟩] + 1 +
      ((TruncNew.priorityRanges ["Foo"]
        (TruncNew.findRanges [⟨false, none, false, false, none, false, true, false, "<source>\n"⟩,
          ⟨true, none, false, false, none, false, true, false, "<class>\n"⟩,
          ⟨false, some "FooX", false, false, none, false, true, false, "<name>FooX</name>\n"⟩,
          ⟨false, none, true, false, none, false, false, false, "</class>\n"⟩] 0).1
        (TruncNew.findRanges [⟨false, none, false, false, none, false, true, false, "<source>\n"⟩,
          ⟨true, none, false, false, none, false, true, false, "<class>\n"⟩,
          ⟨false, some "FooX", false, false, none, false, true, false, "<name>FooX</name>\n"⟩,
          ⟨false, none, true, false, none, false, false, false, "</class>\n"⟩] 0).2).map
        (fun r => r.2 + 1 - r.1)).sum ≤ 20) ∧
    (3 : Nat) ∈ TruncNew.truncateSelect
      [⟨false, none, false, false, none, false, true, false, "<source>\n"⟩,
       ⟨true, none, false, false, none, false, true, false, "<class>\n"⟩,
       ⟨false, some "FooX", false, false, none, false, true, false, "<name>FooX</name>\n"⟩,
       ⟨false, none, true, false, none, false, false, false, "</class>\n"⟩] 20 ["Foo"] :=
  ⟨by decide,
   claim3_priority_content_included
     [⟨false, none, false, false, none, false, true, false, "<source>\n"⟩,
      ⟨true, none, false, false, none, false, true, false, "<class>\n"⟩,
      ⟨false, some "FooX", false, false, none, false, true, false, "<name>FooX</name>\n"⟩,
      ⟨false, none, true, false, none, false, false, false, "</class>\n"⟩] 20 ["Foo"]
     (by decide) (by decide) (1, 3) (by decide) 3 (by decide) (by decide)⟩


namespace Trunc

theorem takeWhile_append_stop (p : Char → Bool) :
    ∀ (l1 : List Char) (x : Char) (l2 : List Char),
    (∀ c ∈ l1, p c = true) → p x = false →
    (l1 ++ x :: l2).takeWhile p = l1 := by
  intro l1
  induction l1 with
  | nil => intro x l2 _ hx; simp [List.takeWhile_cons, hx]
  | cons c cs ih =>
      intro x l2 hall hx
      have hc : p c = true := hall c (List.mem_cons_self _ _)
      simp only [List.cons_append, List.takeWhile_cons, hc]
      rw [ih x l2 (fun d hd => hall d (List.mem_cons_of_mem _ hd)) hx]
      simp

theorem scanOpensGo_skip : ∀ (pre r : List Char),
    scanOpensGo (pre ++ r) pre.length = scanOpensGo r 0 := by
  intro pre
  induction pre with
  | nil => intro r; rfl
  | cons c cs ih =>
      intro r
      simp only [List.cons_append, List.length_cons, scanOpensGo,
        List.append_eq]
      exact ih r

theorem scanClosesGo_skip : ∀ (pre r : List Char),
    scanClosesGo (pre ++ r) pre.length = scanClosesGo r 0 := by
  intro pre
  induction pre with
  | nil => intro r; rfl
  | cons c cs ih =>
      intro r
      simp only [List.cons_append, List.length_cons, scanClosesGo,
        List.append_eq]
      exact ih r

theorem xmlScanGo_skip (stack : List String) : ∀ (pre r : List Char),
    xmlScanGo stack (pre ++ r) pre.length = xmlScanGo stack r 0 := by
  intro pre
  induction pre with
  | nil => intro r; rfl
  | cons c cs ih =>
      intro r
      simp only [List.cons_append, List.length_cons, xmlScanGo,
        List.append_eq]
      exact ih r

theorem scanOpensGo_text : ∀ (l r : List Char),
    (∀ c ∈ l, c ≠ '<') →
    scanOpensGo (l ++ r) 0 = scanOpensGo r 0 := by
  intro l
  induction l with
  | nil => intro r _; rfl
  | cons c cs ih =>
      intro r hall
      have hc : c ≠ '<' := hall c (List.mem_cons_self _ _)
      simp only [List.cons_append, scanOpensGo, if_neg hc]
      exact ih r (fun d hd => hall d (List.mem_cons_of_mem _ hd))

theorem scanClosesGo_text : ∀ (l r : List Char),
    (∀ c ∈ l, c ≠ '<') →
    scanClosesGo (l ++ r) 0 = scanClosesGo r 0 := by
  intro l
  induction l with
  | nil => intro r _; rfl
  | cons c cs ih =>
      intro r hall
      have hc : c ≠ '<' := hall c (List.mem_cons_self _ _)
      simp only [List.cons_append, scanClosesGo, if_neg hc]
      exact ih r (fun d hd => hall d (List.mem_cons_of_mem _ hd))

theorem xmlScanGo_text (stack : List String) : ∀ (l r : List Char),
    (∀ c ∈ l, c ≠ '<') →
    xmlScanGo stack (l ++ r) 0 = xmlScanGo stack r 0 := by
  intro l
  induction l with
  | nil => intro r _; rfl
  | cons c cs ih =>
      intro r hall
      have hc : c ≠ '<' := hall c (List.mem_cons_self _ _)
      simp only [List.cons_append, xmlScanGo, if_neg hc]
      exact ih r (fun d hd => hall d (List.mem_cons_of_mem _ hd))

end Trunc

namespace Trunc

theorem pyWord_props (d : Char) (h : pyWordChar d = true) :
    d ≠ '/' ∧ d ≠ '>' ∧ d ≠ '<' ∧ d ≠ '\n' := by
  refine ⟨?_, ?_, ?_, ?_⟩ <;> intro he <;> subst he <;>
    exact absurd h (by decide)

theorem pyWord_nonTagEnd (d : Char) (h : pyWordChar d = true) :
    nonTagEnd d = true := by
  obtain ⟨h1, h2, _, _⟩ := pyWord_props d h
  simp [nonTagEnd, h1, h2]

theorem alpha_props (c : Char) (h : c.isAlpha = true) :
    c ≠ '!' ∧ c ≠ '/' ∧ c ≠ '?' ∧ c ≠ '<' ∧ c ≠ '>' ∧ c ≠ '\n' := by
  refine ⟨?_, ?_, ?_, ?_, ?_, ?_⟩ <;> intro he <;> subst he <;>
    exact absurd h (by decide)

theorem alpha_word (c : Char) (h : c.isAlpha = true) : pyWordChar c = true := by
  simp [pyWordChar, Char.isAlphanum, h]

theorem attrs_props (a : String) (ha : goodAttrs a = true) :
    (∀ d ∈ a.data, d ≠ '/' ∧ d ≠ '>' ∧ d ≠ '<' ∧ d ≠ '\n') ∧
    (∀ c cs, a.data = c :: cs → pyWordChar c = false) := by
  unfold goodAttrs at ha
  rw [Bool.and_eq_true] at ha
  obtain ⟨h1, h2⟩ := ha
  rw [List.all_eq_true] at h1
  constructor
  · intro d hd
    have := h1 d hd
    simp only [Bool.not_eq_true', Bool.or_eq_false_iff] at this
    simp only [decide_eq_false_iff_not] at this
    exact ⟨this.1.1.1, this.1.1.2, this.1.2, this.2⟩
  · intro c cs hcs
    rw [hcs] at h2
    simpa using h2

theorem goodTagName_parts (n : String) (hn : goodTagName n = true) :
    ∃ c cs, n.data = c :: cs ∧ c.isAlpha = true ∧
      ∀ d ∈ cs, pyWordChar d = true := by
  unfold goodTagName at hn
  cases hd : n.data with
  | nil => rw [hd] at hn; simp at hn
  | cons c cs =>
      rw [hd] at hn
      rw [Bool.and_eq_true] at hn
      exact ⟨c, cs, rfl, hn.1, List.all_eq_true.mp hn.2⟩

end Trunc

namespace Trunc

theorem nonTagEnd_of_ne (d : Char) (h1 : d ≠ '/') (h2 : d ≠ '>') :
    nonTagEnd d = true := by
  simp [nonTagEnd, h1, h2]

theorem scanOpenAt_open (n a : String) (rest : List Char)
    (hn : goodTagName n = true) (ha : goodAttrs a = true) :
    scanOpenAt (n.data ++ a.data ++ '>' :: rest) =
      some (n, n.data.length + a.data.length + 1) := by
  obtain ⟨c, cs, hnd, hca, hcsw⟩ := goodTagName_parts n hn
  have hattr := (attrs_props a ha).1
  have hbody : (c :: (cs ++ (a.data ++ '>' :: rest))).takeWhile nonTagEnd =
      c :: (cs ++ a.data) := by
    rw [List.takeWhile_cons]
    rw [if_pos (by
      obtain ⟨_, h2, _, _, h5, _⟩ := alpha_props c hca
      exact nonTagEnd_of_ne c h2 h5)]
    rw [show cs ++ (a.data ++ '>' :: rest) = (cs ++ a.data) ++ '>' :: rest by
      simp]
    rw [takeWhile_append_stop nonTagEnd (cs ++ a.data) '>' rest ?_ (by decide)]
    intro d hd
    rcases List.mem_append.mp hd with h | h
    · exact pyWord_nonTagEnd d (hcsw d h)
    · exact nonTagEnd_of_ne d (hattr d h).1 (hattr d h).2.1
  have hname : (cs ++ (a.data ++ '>' :: rest)).takeWhile pyWordChar = cs := by
    cases had : a.data with
    | nil =>
        simp only [List.nil_append]
        exact takeWhile_append_stop pyWordChar cs '>' rest hcsw (by decide)
    | cons c2 a2 =>
        have hw2 : pyWordChar c2 = false := (attrs_props a ha).2 c2 a2 had
        exact takeWhile_append_stop pyWordChar cs c2 (a2 ++ '>' :: rest) hcsw hw2
  rw [hnd]
  simp only [List.cons_append, List.append_assoc]
  simp only [scanOpenAt, if_pos hca]
  rw [hbody, hname]
  have hdrop : (c :: (cs ++ (a.data ++ '>' :: rest))).drop
      (c :: (cs ++ a.data)).length = '>' :: rest := by
    rw [show c :: (cs ++ (a.data ++ '>' :: rest)) =
        (c :: (cs ++ a.data)) ++ '>' :: rest by simp]
    exact List.drop_left _ _
  rw [hdrop]
  have : (⟨c :: cs⟩ : String) = n := by rw [← hnd]
  rw [this]
  simp [hnd]
  omega

end Trunc

namespace Trunc

theorem scanCloseAt_close (n : String) (rest : List Char)
    (hn : goodTagName n = true) :
    scanCloseAt ('/' :: (n.data ++ '>' :: rest)) =
      some (n, n.data.length + 2) := by
  obtain ⟨c, cs, hnd, hca, hcsw⟩ := goodTagName_parts n hn
  rw [hnd]
  simp only [List.cons_append]
  simp only [scanCloseAt, if_pos rfl, if_pos hca]
  have hrun : (cs ++ '>' :: rest).takeWhile pyWordChar = cs :=
    takeWhile_append_stop pyWordChar cs '>' rest hcsw (by decide)
  rw [hrun]
  have hdrop : (cs ++ '>' :: rest).drop cs.length = '>' :: rest :=
    List.drop_left _ _
  rw [hdrop]
  have : (⟨c :: cs⟩ : String) = n := by rw [← hnd]
  rw [this]
  simp [hnd]

theorem scanOpenAt_slash (X : List Char) : scanOpenAt ('/' :: X) = none := by
  simp [scanOpenAt]

theorem scanCloseAt_nonslash (c : Char) (X : List Char) (h : c ≠ '/') :
    scanCloseAt (c :: X) = none := by
  simp [scanCloseAt, h]

theorem goodText_ne_lt (s : String) (hs : goodText s = true) :
    ∀ c ∈ s.data, c ≠ '<' := by
  intro c hc
  unfold goodText at hs
  rw [List.all_eq_true] at hs
  have := hs c hc
  simp only [Bool.not_eq_true', Bool.or_eq_false_iff,
    decide_eq_false_iff_not] at this
  exact this.1

theorem goodTagName_ne_lt (n : String) (hn : goodTagName n = true) :
    ∀ c ∈ n.data, c ≠ '<' := by
  obtain ⟨c, cs, hnd, hca, hcsw⟩ := goodTagName_parts n hn
  rw [hnd]
  intro d hd
  rcases List.mem_cons.mp hd with h | h
  · subst h; exact (alpha_props d hca).2.2.2.1
  · exact (pyWord_props d (hcsw d h)).2.2.1

theorem scanOpensGo_lt (X : List Char) :
    scanOpensGo ('<' :: X) 0 =
      match scanOpenAt X with
      | some (n, cnt) => n :: scanOpensGo X cnt
      | none => scanOpensGo X 0 := by
  simp [scanOpensGo]

theorem scanClosesGo_lt (X : List Char) :
    scanClosesGo ('<' :: X) 0 =
      match scanCloseAt X with
      | some (n, cnt) => n :: scanClosesGo X cnt
      | none => scanClosesGo X 0 := by
  simp [scanClosesGo]

theorem xmlScanGo_lt (stack : List String) (X : List Char) :
    xmlScanGo stack ('<' :: X) 0 =
      match xmlTagAt stack X with
      | some (st2, cnt) => xmlScanGo st2 X cnt
      | none => none := by
  simp [xmlScanGo]

theorem scanOpensGo_item (it : Item) (hgood : goodItem it = true)
    (rest : List Char) :
    scanOpensGo (renderItem it ++ rest) 0 =
      (openName it).toList ++ scanOpensGo rest 0 := by
  cases it with
  | openT nm a =>
      simp only [goodItem, Bool.and_eq_true] at hgood
      have hr : renderItem (Item.openT nm a) ++ rest =
          '<' :: (nm.data ++ a.data ++ '>' :: rest) := by simp [renderItem]
      have hr2 : nm.data ++ a.data ++ '>' :: rest =
          (nm.data ++ a.data ++ ['>']) ++ rest := by simp
      rw [hr, scanOpensGo_lt, scanOpenAt_open nm a rest hgood.1 hgood.2, hr2]
      show nm :: scanOpensGo ((nm.data ++ a.data ++ ['>']) ++ rest)
          (nm.data.length + a.data.length + 1) = [nm] ++ scanOpensGo rest 0
      rw [show nm.data.length + a.data.length + 1 =
          (nm.data ++ a.data ++ ['>']).length by simp; omega]
      rw [scanOpensGo_skip]
      rfl
  | closeT nm =>
      simp only [goodItem] at hgood
      have hr : renderItem (Item.closeT nm) ++ rest =
          '<' :: ('/' :: (nm.data ++ '>' :: rest)) := by simp [renderItem]
      have hr2 : ('/' : Char) :: (nm.data ++ '>' :: rest) =
          ('/' :: nm.data ++ ['>']) ++ rest := by simp
      have hne : ∀ d ∈ (('/' :: nm.data ++ ['>']) : List Char), d ≠ '<' := by
        intro d hd
        rcases List.mem_cons.mp hd with h | h
        · subst h; decide
        · rcases List.mem_append.mp h with h | h
          · exact goodTagName_ne_lt nm hgood d h
          · have := List.mem_singleton.mp h
            subst this; decide
      rw [hr, scanOpensGo_lt, scanOpenAt_slash, hr2,
        scanOpensGo_text _ _ hne]
      rfl
  | text s =>
      simp only [goodItem] at hgood
      have hr : renderItem (Item.text s) ++ rest = s.data ++ rest := rfl
      rw [hr, scanOpensGo_text _ _ (goodText_ne_lt s hgood)]
      rfl

theorem scanClosesGo_item (it : Item) (hgood : goodItem it = true)
    (rest : List Char) :
    scanClosesGo (renderItem it ++ rest) 0 =
      (closeName it).toList ++ scanClosesGo rest 0 := by
  cases it with
  | openT nm a =>
      simp only [goodItem, Bool.and_eq_true] at hgood
      obtain ⟨c, cs, hnd, hca, hcsw⟩ := goodTagName_parts nm hgood.1
      have hr : renderItem (Item.openT nm a) ++ rest =
          '<' :: (c :: (cs ++ a.data ++ '>' :: rest)) := by
        simp [renderItem, hnd]
      have hr2 : (c : Char) :: (cs ++ a.data ++ '>' :: rest) =
          (c :: cs ++ a.data ++ ['>']) ++ rest := by simp
      have hne : ∀ d ∈ ((c :: cs ++ a.data ++ ['>']) : List Char), d ≠ '<' := by
        intro d hd
        rcases List.mem_cons.mp hd with h | h
        · subst h; exact (alpha_props d hca).2.2.2.1
        · rcases List.mem_append.mp h with h | h
          · rcases List.mem_append.mp h with h | h
            · exact (pyWord_props d (hcsw d h)).2.2.1
            · exact ((attrs_props a hgood.2).1 d h).2.2.1
          · have := List.mem_singleton.mp h
            subst this; decide
      rw [hr, scanClosesGo_lt,
        scanCloseAt_nonslash c _ (alpha_props c hca).2.1, hr2,
        scanClosesGo_text _ _ hne]
      rfl
  | closeT nm =>
      simp only [goodItem] at hgood
      have hr : renderItem (Item.closeT nm) ++ rest =
          '<' :: ('/' :: (nm.data ++ '>' :: rest)) := by simp [renderItem]
      have hr2 : ('/' : Char) :: (nm.data ++ '>' :: rest) =
          (('/' :: nm.data ++ ['>']) : List Char) ++ rest := by simp
      rw [hr, scanClosesGo_lt, scanCloseAt_close nm rest hgood, hr2]
      show nm :: scanClosesGo (('/' :: nm.data ++ ['>']) ++ rest)
          (nm.data.length + 2) = [nm] ++ scanClosesGo rest 0
      rw [show nm.data.length + 2 = ('/' :: nm.data ++ ['>']).length by
        simp]
      rw [scanClosesGo_skip]
      rfl
  | text s =>
      simp only [goodItem] at hgood
      have hr : renderItem (Item.text s) ++ rest = s.data ++ rest := rfl
      rw [hr, scanClosesGo_text _ _ (goodText_ne_lt s hgood)]
      rfl

end Trunc

namespace Trunc

theorem scanOpens_line (items : List Item)
    (hgood : ∀ it ∈ items, goodItem it = true) : ∀ (rest : List Char),
    scanOpensGo (renderLine items ++ rest) 0 =
      items.filterMap openName ++ scanOpensGo rest 0 := by
  induction items with
  | nil => intro rest; simp [renderLine]
  | cons it its ih =>
      intro rest
      have hr : renderLine (it :: its) ++ rest =
          renderItem it ++ (renderLine its ++ rest) := by
        simp [renderLine]
      rw [hr, scanOpensGo_item it (hgood it (List.mem_cons_self _ _)),
        ih (fun j hj => hgood j (List.mem_cons_of_mem _ hj))]
      cases it <;> simp [openName]

theorem scanCloses_line (items : List Item)
    (hgood : ∀ it ∈ items, goodItem it = true) : ∀ (rest : List Char),
    scanClosesGo (renderLine items ++ rest) 0 =
      items.filterMap closeName ++ scanClosesGo rest 0 := by
  induction items with
  | nil => intro rest; simp [renderLine]
  | cons it its ih =>
      intro rest
      have hr : renderLine (it :: its) ++ rest =
          renderItem it ++ (renderLine its ++ rest) := by
        simp [renderLine]
      rw [hr, scanClosesGo_item it (hgood it (List.mem_cons_self _ _)),
        ih (fun j hj => hgood j (List.mem_cons_of_mem _ hj))]
      cases it <;> simp [closeName]

end Trunc

namespace Trunc

theorem trueStepItem_tag (st : Option (List String)) (it : Item) :
    trueStepItem st it =
      (match itemTag it with
       | some t => tagStep st t
       | none => st) := by
  cases st <;> cases it <;> rfl

theorem trueFold_tags : ∀ (items : List Item) (st : Option (List String)),
    items.foldl trueStepItem st = (items.filterMap itemTag).foldl tagStep st := by
  intro items
  induction items with
  | nil => intro st; rfl
  | cons it its ih =>
      intro st
      rw [List.foldl_cons, trueStepItem_tag]
      cases hit : itemTag it with
      | none => simp [List.filterMap_cons, hit, ih]
      | some t => simp [List.filterMap_cons, hit, ih]

theorem openName_from_tags : ∀ (items : List Item),
    items.filterMap openName =
      (items.filterMap itemTag).filterMap
        (fun t => if t.1 then some t.2 else none) := by
  intro items
  induction items with
  | nil => rfl
  | cons it its ih =>
      cases it <;> simp [openName, itemTag, List.filterMap_cons, ih]

theorem closeName_from_tags : ∀ (items : List Item),
    items.filterMap closeName =
      (items.filterMap itemTag).filterMap
        (fun t => if t.1 then none else some t.2) := by
  intro items
  induction items with
  | nil => rfl
  | cons it its ih =>
      cases it <;> simp [closeName, itemTag, List.filterMap_cons, ih]

theorem processLine_line (items : List Item) (stack stack2 : List String)
    (hgood : ∀ it ∈ items, goodItem it = true)
    (hshape : goodLineShape items = true)
    (hfold : items.foldl trueStepItem (some stack) = some stack2) :
    processLine stack (renderLine items) = stack2 := by
  unfold processLine
  have hOpens : scanOpens (renderLine items) = items.filterMap openName := by
    unfold scanOpens
    rw [show renderLine items = renderLine items ++ ([] : List Char) by simp,
      scanOpens_line items hgood []]
    simp [scanOpensGo]
  have hCloses : scanCloses (renderLine items) = items.filterMap closeName := by
    unfold scanCloses
    rw [show renderLine items = renderLine items ++ ([] : List Char) by simp,
      scanCloses_line items hgood []]
    simp [scanClosesGo]
  rw [hOpens, hCloses, openName_from_tags, closeName_from_tags]
  rw [trueFold_tags] at hfold
  unfold goodLineShape at hshape
  generalize htg : items.filterMap itemTag = tg at hshape hfold ⊢
  cases tg with
  | nil =>
      simp only [List.foldl_nil, Option.some_inj] at hfold
      subst hfold
      simp
  | cons t ts =>
      obtain ⟨b, n⟩ := t
      cases ts with
      | nil =>
          cases b
          · simp only [List.foldl_cons, List.foldl_nil, tagStep,
              Bool.false_eq_true, if_false] at hfold
            cases stack with
            | nil => simp at hfold
            | cons top st2 =>
                simp only [] at hfold
                by_cases htop : top = n
                · rw [if_pos htop] at hfold
                  simp only [Option.some_inj] at hfold
                  subst hfold
                  simp [htop]
                · rw [if_neg htop] at hfold
                  simp at hfold
          · simp only [List.foldl_cons, List.foldl_nil, tagStep, if_pos,
              Option.some_inj] at hfold
            subst hfold
            simp
      | cons t2 ts2 =>
          obtain ⟨b2, n2⟩ := t2
          cases ts2 with
          | cons t3 ts3 => simp at hshape
          | nil =>
              cases b <;> cases b2
              · simp at hshape
              · simp at hshape
              · have hnm : n = n2 := by simpa using hshape
                subst hnm
                simp only [List.foldl_cons, List.foldl_nil, tagStep] at hfold
                simp at hfold
                subst hfold
                simp
              · simp at hshape

end Trunc

namespace Trunc

theorem takeWhile_ngt (l : List Char) (hl : ∀ d ∈ l, d ≠ '>')
    (rest : List Char) :
    (l ++ '>' :: rest).takeWhile (fun x => !(x = '>')) = l := by
  apply takeWhile_append_stop
  · intro d hd
    simp [hl d hd]
  · simp

theorem xmlTagAt_open (nm a : String) (stack : List String) (rest : List Char)
    (hn : goodTagName nm = true) (ha : goodAttrs a = true) :
    xmlTagAt stack (nm.data ++ a.data ++ '>' :: rest) =
      some (nm :: stack, nm.data.length + a.data.length + 1) := by
  obtain ⟨c, cs, hnd, hca, hcsw⟩ := goodTagName_parts nm hn
  obtain ⟨hne1, hne2, hne3, hne4, hne5, hne6⟩ := alpha_props c hca
  have hattr := (attrs_props a ha).1
  rw [hnd]
  simp only [List.cons_append, List.append_assoc]
  simp only [xmlTagAt, if_neg hne1, if_neg hne2, if_neg hne3, if_pos hca]
  have hsplit : (c : Char) :: (cs ++ (a.data ++ '>' :: rest)) =
      (c :: (cs ++ a.data)) ++ '>' :: rest := by simp
  have hcontent : (c :: (cs ++ (a.data ++ '>' :: rest))).takeWhile
      (fun x => !(x = '>')) = c :: (cs ++ a.data) := by
    rw [hsplit]
    apply takeWhile_ngt
    intro d hd
    rcases List.mem_cons.mp hd with h | h
    · subst h; exact hne5
    · rcases List.mem_append.mp h with h | h
      · exact (pyWord_props d (hcsw d h)).2.1
      · exact (hattr d h).2.1
  rw [hcontent]
  have hdrop : (c :: (cs ++ (a.data ++ '>' :: rest))).drop
      (c :: (cs ++ a.data)).length = '>' :: rest := by
    rw [hsplit]
    exact List.drop_left _ _
  rw [hdrop]
  have hlastne : ¬((c :: (cs ++ a.data)).getLast? = some '/') := by
    intro hcontra
    have hx : '/' ∈ (c :: (cs ++ a.data)).getLast? := by
      rw [Option.mem_def]
      exact hcontra
    obtain ⟨hnenil, heq⟩ := List.mem_getLast?_eq_getLast hx
    have hmem : '/' ∈ c :: (cs ++ a.data) := by
      rw [heq]
      exact List.getLast_mem hnenil
    rcases List.mem_cons.mp hmem with h | h
    · exact hne2 h.symm
    · rcases List.mem_append.mp h with h | h
      · exact (pyWord_props _ (hcsw _ h)).1 rfl
      · exact (hattr _ h).1 rfl
  rw [if_neg hlastne]
  have hname : (cs ++ (a.data ++ '>' :: rest)).takeWhile pyWordChar = cs := by
    cases had : a.data with
    | nil =>
        simp only [List.nil_append]
        exact takeWhile_append_stop pyWordChar cs '>' rest hcsw (by decide)
    | cons c2 a2 =>
        have hw2 : pyWordChar c2 = false := (attrs_props a ha).2 c2 a2 had
        exact takeWhile_append_stop pyWordChar cs c2 (a2 ++ '>' :: rest) hcsw hw2
  rw [hname]
  have heta : (⟨c :: cs⟩ : String) = nm := by rw [← hnd]
  rw [heta]
  simp [hnd]
  omega

theorem goodTagName_ne_gtc (n : String) (hn : goodTagName n = true) :
    ∀ c ∈ n.data, c ≠ '>' := by
  obtain ⟨c, cs, hnd, hca, hcsw⟩ := goodTagName_parts n hn
  rw [hnd]
  intro d hd
  rcases List.mem_cons.mp hd with h | h
  · subst h; exact (alpha_props d hca).2.2.2.2.1
  · exact (pyWord_props d (hcsw d h)).2.1

theorem xmlTagAt_close (nm : String) (stack2 : List String) (rest : List Char)
    (hn : goodTagName nm = true) :
    xmlTagAt (nm :: stack2) ('/' :: (nm.data ++ '>' :: rest)) =
      some (stack2, nm.data.length + 2) := by
  simp only [xmlTagAt, if_neg (by decide : ¬('/' : Char) = '!'),
    if_pos (rfl : ('/' : Char) = '/')]
  have hcontent : (nm.data ++ '>' :: rest).takeWhile (fun x => !(x = '>')) =
      nm.data := by
    apply takeWhile_ngt
    exact fun d hd => goodTagName_ne_gtc nm hn d hd
  rw [hcontent]
  rw [List.drop_left]
  show (if nm = (⟨nm.data⟩ : String) then some (stack2, nm.data.length + 2)
    else none) = some (stack2, nm.data.length + 2)
  rw [if_pos (show nm = (⟨nm.data⟩ : String) by cases nm; rfl)]

end Trunc

namespace Trunc

theorem xmlScanGo_nl (stack : List String) (r : List Char) :
    xmlScanGo stack ('\n' :: r) 0 = xmlScanGo stack r 0 := by
  simp [xmlScanGo]

theorem xmlScanGo_item (it : Item) (hgood : goodItem it = true)
    (stack stack2 : List String)
    (hstep : trueStepItem (some stack) it = some stack2) (rest : List Char) :
    xmlScanGo stack (renderItem it ++ rest) 0 = xmlScanGo stack2 rest 0 := by
  cases it with
  | openT nm a =>
      simp only [goodItem, Bool.and_eq_true] at hgood
      simp only [trueStepItem, Option.some_inj] at hstep
      subst hstep
      have hr : renderItem (Item.openT nm a) ++ rest =
          '<' :: (nm.data ++ a.data ++ '>' :: rest) := by simp [renderItem]
      rw [hr, xmlScanGo_lt, xmlTagAt_open nm a stack rest hgood.1 hgood.2]
      show xmlScanGo (nm :: stack) (nm.data ++ a.data ++ '>' :: rest)
        (nm.data.length + a.data.length + 1) = xmlScanGo (nm :: stack) rest 0
      rw [show nm.data ++ a.data ++ '>' :: rest =
        (nm.data ++ a.data ++ ['>']) ++ rest by simp]
      rw [show nm.data.length + a.data.length + 1 =
          (nm.data ++ a.data ++ ['>']).length by simp; omega]
      rw [xmlScanGo_skip]
  | closeT nm =>
      simp only [goodItem] at hgood
      simp only [trueStepItem] at hstep
      cases stack with
      | nil => simp at hstep
      | cons top st2 =>
          simp only [] at hstep
          by_cases htop : top = nm
          · rw [if_pos htop] at hstep
            simp only [Option.some_inj] at hstep
            subst hstep
            subst htop
            have hr : renderItem (Item.closeT top) ++ rest =
                '<' :: ('/' :: (top.data ++ '>' :: rest)) := by
              simp [renderItem]
            rw [hr, xmlScanGo_lt, xmlTagAt_close top st2 rest hgood]
            show xmlScanGo st2 ('/' :: (top.data ++ '>' :: rest))
              (top.data.length + 2) = xmlScanGo st2 rest 0
            rw [show ('/' : Char) :: (top.data ++ '>' :: rest) =
              ('/' :: top.data ++ ['>']) ++ rest by simp]
            rw [show top.data.length + 2 =
              ('/' :: top.data ++ ['>']).length by simp]
            rw [xmlScanGo_skip]
          · rw [if_neg htop] at hstep
            simp at hstep
  | text s =>
      simp only [goodItem] at hgood
      simp only [trueStepItem, Option.some_inj] at hstep
      subst hstep
      have hr : renderItem (Item.text s) ++ rest = s.data ++ rest := rfl
      rw [hr, xmlScanGo_text _ _ _ (goodText_ne_lt s hgood)]

theorem trueStepItem_none (it : Item) : trueStepItem none it = none := rfl

theorem itemsFold_none (items : List Item) :
    items.foldl trueStepItem none = none := by
  induction items with
  | nil => rfl
  | cons it its ih => rw [List.foldl_cons, trueStepItem_none]; exact ih

theorem linesFold_none (lns : List (List Item)) :
    lns.foldl (fun st line => line.foldl trueStepItem st) none = none := by
  induction lns with
  | nil => rfl
  | cons ln lns ih => rw [List.foldl_cons, itemsFold_none]; exact ih

theorem xmlScan_items (items : List Item) :
    ∀ (stack stack2 : List String),
    (∀ it ∈ items, goodItem it = true) →
    items.foldl trueStepItem (some stack) = some stack2 →
    ∀ (rest : List Char),
    xmlScanGo stack (renderLine items ++ rest) 0 = xmlScanGo stack2 rest 0 := by
  induction items with
  | nil =>
      intro stack stack2 _ hfold rest
      simp only [List.foldl_nil, Option.some_inj] at hfold
      subst hfold
      simp [renderLine]
  | cons it its ih =>
      intro stack stack2 hgood hfold rest
      rw [List.foldl_cons] at hfold
      cases hstep : trueStepItem (some stack) it with
      | none =>
          rw [hstep, itemsFold_none] at hfold
          simp at hfold
      | some st1 =>
          rw [hstep] at hfold
          have hr : renderLine (it :: its) ++ rest =
              renderItem it ++ (renderLine its ++ rest) := by
            simp [renderLine]
          rw [hr, xmlScanGo_item it (hgood it (List.mem_cons_self _ _))
            stack st1 hstep]
          exact ih st1 stack2
            (fun j hj => hgood j (List.mem_cons_of_mem _ hj)) hfold rest

end Trunc

namespace Trunc

theorem xmlScan_doc : ∀ (lns : List (List Item)) (stack stack2 : List String),
    (∀ line ∈ lns, ∀ it ∈ line, goodItem it = true) →
    lns.foldl (fun st line => line.foldl trueStepItem st) (some stack) =
      some stack2 →
    ∀ (tail : List Char),
    xmlScanGo stack (intercalateNL (lns.map renderLine) ++ tail) 0 =
      xmlScanGo stack2 tail 0 := by
  intro lns
  induction lns with
  | nil =>
      intro stack stack2 _ hfold tail
      simp only [List.foldl_nil, Option.some_inj] at hfold
      subst hfold
      simp [intercalateNL]
  | cons ln lns ih =>
      intro stack stack2 hgood hfold tail
      rw [List.foldl_cons] at hfold
      cases hstep : ln.foldl trueStepItem (some stack) with
      | none =>
          rw [hstep, linesFold_none] at hfold
          simp at hfold
      | some st1 =>
          rw [hstep] at hfold
          cases lns with
          | nil =>
              simp only [List.foldl_nil, Option.some_inj] at hfold
              subst hfold
              simp only [List.map_cons, List.map_nil, intercalateNL]
              exact xmlScan_items ln stack st1
                (hgood ln (List.mem_cons_self _ _)) hstep tail
          | cons ln2 lns2 =>
              simp only [List.map_cons]
              rw [show intercalateNL (renderLine ln :: renderLine ln2 ::
                  List.map renderLine lns2) = renderLine ln ++
                  '\n' :: intercalateNL (renderLine ln2 ::
                    List.map renderLine lns2) from rfl]
              rw [List.append_assoc]
              rw [xmlScan_items ln stack st1
                (hgood ln (List.mem_cons_self _ _)) hstep]
              rw [List.cons_append, xmlScanGo_nl]
              have := ih st1 stack2
                (fun l hl => hgood l (List.mem_cons_of_mem _ hl)) hfold tail
              simpa using this

theorem xmlScanGo_commentLine (stack : List String) (rest : List Char) :
    xmlScanGo stack (commentLineChars ++ rest) 0 = xmlScanGo stack rest 0 := rfl

end Trunc

namespace Trunc

theorem processFold : ∀ (lns : List (List Item)) (stack stack2 : List String),
    (∀ line ∈ lns, (∀ it ∈ line, goodItem it = true) ∧
      goodLineShape line = true) →
    lns.foldl (fun st line => line.foldl trueStepItem st) (some stack) =
      some stack2 →
    (lns.map renderLine).foldl processLine stack = stack2 := by
  intro lns
  induction lns with
  | nil =>
      intro stack stack2 _ h
      simpa using h
  | cons ln lns ih =>
      intro stack stack2 hgood hfold
      rw [List.foldl_cons] at hfold
      cases hstep : ln.foldl trueStepItem (some stack) with
      | none =>
          rw [hstep, linesFold_none] at hfold
          simp at hfold
      | some st1 =>
          rw [hstep] at hfold
          simp only [List.map_cons, List.foldl_cons]
          rw [processLine_line ln stack st1 (hgood ln (List.mem_cons_self _ _)).1
            (hgood ln (List.mem_cons_self _ _)).2 hstep]
          exact ih st1 stack2
            (fun l hl => hgood l (List.mem_cons_of_mem _ hl)) hfold

theorem xmlScanGo_closer (t : String) (st : List String) (rest : List Char)
    (hn : goodTagName t = true) :
    xmlScanGo (t :: st) (closerChars t ++ rest) 0 = xmlScanGo st rest 0 := by
  have hr : closerChars t ++ rest = '<' :: ('/' :: (t.data ++ '>' :: rest)) := by
    simp [closerChars]
  rw [hr, xmlScanGo_lt, xmlTagAt_close t st rest hn]
  show xmlScanGo st ('/' :: (t.data ++ '>' :: rest)) (t.data.length + 2) =
    xmlScanGo st rest 0
  have h2 : '/' :: (t.data ++ '>' :: rest) = ('/' :: t.data ++ ['>']) ++ rest := by
    simp
  rw [h2]
  have hlen : t.data.length + 2 = ('/' :: t.data ++ ['>']).length := by
    simp
  rw [hlen, xmlScanGo_skip]

theorem closersScan : ∀ (ts : List String),
    (∀ t ∈ ts, goodTagName t = true) →
    ts ≠ [] →
    xmlScanGo ts (intercalateNL (ts.map closerChars)) 0 = some [] := by
  intro ts
  induction ts with
  | nil => intro _ h; exact absurd rfl h
  | cons t ts ih =>
      intro hgood _
      cases ts with
      | nil =>
          show xmlScanGo [t] (intercalateNL [closerChars t]) 0 = some []
          rw [show intercalateNL [closerChars t] = closerChars t ++ [] by
            simp [intercalateNL]]
          rw [xmlScanGo_closer t [] [] (hgood t (List.mem_cons_self _ _))]
          rfl
      | cons t2 ts2 =>
          simp only [List.map_cons]
          rw [show intercalateNL (closerChars t :: closerChars t2 ::
              List.map closerChars ts2) = closerChars t ++
              '\n' :: intercalateNL (closerChars t2 ::
                List.map closerChars ts2) from rfl]
          rw [xmlScanGo_closer t (t2 :: ts2) _
            (hgood t (List.mem_cons_self _ _))]
          rw [xmlScanGo_nl]
          exact ih (fun u hu => hgood u (List.mem_cons_of_mem _ hu))
            (by simp)

end Trunc

namespace Trunc

theorem goodTagName_no_nl (n : String) (hn : goodTagName n = true) :
    ∀ d ∈ n.data, d ≠ '\n' := by
  obtain ⟨c, cs, hnd, hca, hcsw⟩ := goodTagName_parts n hn
  rw [hnd]
  intro d hd
  rcases List.mem_cons.mp hd with h | h
  · subst h; exact (alpha_props d hca).2.2.2.2.2
  · exact (pyWord_props d (hcsw d h)).2.2.2

theorem renderItem_no_nl (it : Item) (hgood : goodItem it = true) :
    ∀ d ∈ renderItem it, d ≠ '\n' := by
  cases it with
  | openT n a =>
      simp only [goodItem, Bool.and_eq_true] at hgood
      intro d hd
      simp only [renderItem, List.mem_cons, List.mem_append,
        List.mem_singleton] at hd
      rcases hd with h | ((h | h) | (h | h))
      · subst h; decide
      · exact goodTagName_no_nl n hgood.1 d h
      · exact ((attrs_props a hgood.2).1 d h).2.2.2
      · subst h; decide
      · exact absurd h (List.not_mem_nil d)
  | closeT n =>
      simp only [goodItem] at hgood
      intro d hd
      simp only [renderItem, List.mem_cons, List.mem_append,
        List.mem_singleton] at hd
      rcases hd with h | h | h | h | h
      · subst h; decide
      · subst h; decide
      · exact goodTagName_no_nl n hgood d h
      · subst h; decide
      · exact absurd h (List.not_mem_nil d)
  | text s =>
      simp only [goodItem, goodText, List.all_eq_true] at hgood
      intro d hd
      have := hgood d hd
      simp only [Bool.not_eq_true', Bool.or_eq_false_iff,
        decide_eq_false_iff_not] at this
      exact this.2

theorem renderLine_no_nl (items : List Item)
    (hgood : ∀ it ∈ items, goodItem it = true) :
    ∀ d ∈ renderLine items, d ≠ '\n' := by
  intro d hd
  simp only [renderLine, List.mem_flatten, List.mem_map] at hd
  obtain ⟨l, ⟨it, hit, hl⟩, hdl⟩ := hd
  subst hl
  exact renderItem_no_nl it (hgood it hit) d hdl

theorem splitOn_no_sep (sep : Char) : ∀ (l : List Char),
    (∀ d ∈ l, d ≠ sep) → splitOnCharL sep l = [l] := by
  intro l
  induction l with
  | nil => intro _; rfl
  | cons c cs ih =>
      intro h
      unfold splitOnCharL
      rw [if_neg (h c (List.mem_cons_self _ _))]
      rw [ih (fun d hd => h d (List.mem_cons_of_mem _ hd))]

theorem splitOn_sep_append (sep : Char) : ∀ (l t : List Char),
    (∀ d ∈ l, d ≠ sep) →
    splitOnCharL sep (l ++ sep :: t) = l :: splitOnCharL sep t := by
  intro l
  induction l with
  | nil =>
      intro t _
      simp only [List.nil_append, splitOnCharL]
      simp
  | cons c cs ih =>
      intro t h
      simp only [List.cons_append, splitOnCharL]
      rw [if_neg (h c (List.mem_cons_self _ _))]
      simp only [List.append_eq]
      rw [ih t (fun d hd => h d (List.mem_cons_of_mem _ hd))]

theorem splitOn_intercalateNL : ∀ (ls : List (List Char)),
    (∀ l ∈ ls, ∀ d ∈ l, d ≠ '\n') → ls ≠ [] →
    splitOnCharL '\n' (intercalateNL ls) = ls := by
  intro ls
  induction ls with
  | nil => intro _ h; exact absurd rfl h
  | cons l ls ih =>
      intro hgood _
      cases ls with
      | nil =>
          show splitOnCharL '\n' (intercalateNL [l]) = [l]
          rw [show intercalateNL [l] = l from rfl]
          exact splitOn_no_sep '\n' l (hgood l (List.mem_cons_self _ _))
      | cons l2 ls2 =>
          rw [show intercalateNL (l :: l2 :: ls2) =
            l ++ '\n' :: intercalateNL (l2 :: ls2) from rfl]
          rw [splitOn_sep_append '\n' l _ (hgood l (List.mem_cons_self _ _))]
          rw [ih (fun m hm => hgood m (List.mem_cons_of_mem _ hm)) (by simp)]

end Trunc

namespace Trunc

theorem itemsFold_stack_names : ∀ (items : List Item) (stack stack2 : List String),
    items.foldl trueStepItem (some stack) = some stack2 →
    ∀ t ∈ stack2, t ∈ stack ∨ ∃ a, Item.openT t a ∈ items := by
  intro items
  induction items with
  | nil =>
      intro stack stack2 hfold t ht
      simp only [List.foldl_nil, Option.some_inj] at hfold
      subst hfold
      exact Or.inl ht
  | cons it its ih =>
      intro stack stack2 hfold t ht
      rw [List.foldl_cons] at hfold
      cases hstep : trueStepItem (some stack) it with
      | none =>
          rw [hstep, itemsFold_none] at hfold
          simp at hfold
      | some st1 =>
          rw [hstep] at hfold
          rcases ih st1 stack2 hfold t ht with h1 | ⟨a, ha⟩
          · cases it with
            | openT n b =>
                simp only [trueStepItem, Option.some_inj] at hstep
                subst hstep
                rcases List.mem_cons.mp h1 with h | h
                · subst h; exact Or.inr ⟨b, List.mem_cons_self _ _⟩
                · exact Or.inl h
            | closeT n =>
                cases stack with
                | nil => simp [trueStepItem] at hstep
                | cons top rest =>
                    simp only [trueStepItem] at hstep
                    by_cases htop : top = n
                    · rw [if_pos htop] at hstep
                      simp only [Option.some_inj] at hstep
                      subst hstep
                      exact Or.inl (List.mem_cons_of_mem _ h1)
                    · rw [if_neg htop] at hstep
                      simp at hstep
            | text s =>
                simp only [trueStepItem, Option.some_inj] at hstep
                subst hstep
                exact Or.inl h1
          · exact Or.inr ⟨a, List.mem_cons_of_mem _ ha⟩

theorem linesFold_stack_names : ∀ (lns : List (List Item))
    (stack stack2 : List String),
    lns.foldl (fun st line => line.foldl trueStepItem st) (some stack) =
      some stack2 →
    ∀ t ∈ stack2, t ∈ stack ∨ ∃ line ∈ lns, ∃ a, Item.openT t a ∈ line := by
  intro lns
  induction lns with
  | nil =>
      intro stack stack2 hfold t ht
      simp only [List.foldl_nil, Option.some_inj] at hfold
      subst hfold
      exact Or.inl ht
  | cons ln lns ih =>
      intro stack stack2 hfold t ht
      rw [List.foldl_cons] at hfold
      cases hstep : ln.foldl trueStepItem (some stack) with
      | none =>
          rw [hstep, linesFold_none] at hfold
          simp at hfold
      | some st1 =>
          rw [hstep] at hfold
          rcases ih st1 stack2 hfold t ht with h1 | ⟨l, hl, a, ha⟩
          · rcases itemsFold_stack_names ln stack st1 hstep t h1 with
              h2 | ⟨a, ha⟩
            · exact Or.inl h2
            · exact Or.inr ⟨ln, List.mem_cons_self _ _, a, ha⟩
          · exact Or.inr ⟨l, List.mem_cons_of_mem _ hl, a, ha⟩

end Trunc

namespace Trunc

/-- **C4, amended.** For every nonempty line-structured input — each line a
sequence of good items (tags with scanner-recoverable names, benign
attribute text, markup-free character data) whose tag shape is one of
`[]`, `[open]`, `[close]`, `[open n, close n]`, with every closing tag
matching the innermost open element (true of any line-cut prefix of a
well-formed document) — `balance_xml_tags` returns a string that parses as
well-formed XML: the comment line plus generated closing tags close every
still-open element, innermost first. -/
theorem claim4_balanced_output_wellformed (lns : List (List Item)) (final : List String)
    (hne : lns ≠ [])
    (hgood : ∀ line ∈ lns, (∀ it ∈ line, goodItem it = true) ∧
      goodLineShape line = true)
    (hstack : trueStack lns = some final) :
    wellFormedXml (balance_xml_tags ⟨intercalateNL (lns.map renderLine)⟩) =
      true := by
  simp only [trueStack] at hstack
  have hgood1 : ∀ line ∈ lns, ∀ it ∈ line, goodItem it = true :=
    fun l hl => (hgood l hl).1
  have hmapne : lns.map renderLine ≠ [] := by
    cases lns with
    | nil => exact absurd rfl hne
    | cons a b => simp
  have hsplit : splitOnCharL '\n' (intercalateNL (lns.map renderLine)) =
      lns.map renderLine := by
    apply splitOn_intercalateNL
    · intro l hl
      obtain ⟨line, hline, hl2⟩ := List.mem_map.mp hl
      subst hl2
      exact renderLine_no_nl line (hgood1 line hline)
    · exact hmapne
  have hproc : (lns.map renderLine).foldl processLine [] = final :=
    processFold lns [] final hgood hstack
  have hnames : ∀ t ∈ final, goodTagName t = true := by
    intro t ht
    rcases linesFold_stack_names lns [] final hstack t ht with h | ⟨l, hl, a, ha⟩
    · exact absurd h (List.not_mem_nil t)
    · have hg := (hgood l hl).1 _ ha
      simp only [goodItem, Bool.and_eq_true] at hg
      exact hg.1
  rw [show balance_xml_tags ⟨intercalateNL (lns.map renderLine)⟩ =
    ⟨balanceChars (intercalateNL (lns.map renderLine))⟩ from rfl]
  have hbc : balanceChars (intercalateNL (lns.map renderLine)) =
      if final.isEmpty then intercalateNL (lns.map renderLine)
      else intercalateNL (lns.map renderLine ++
        commentLineChars :: final.map closerChars) := by
    simp only [balanceChars]
    rw [hsplit, hproc]
  rw [hbc]
  cases final with
  | nil =>
      simp only [List.isEmpty_nil, if_pos]
      unfold wellFormedXml xmlScan
      have hscan := xmlScan_doc lns [] [] hgood1 hstack []
      rw [List.append_nil] at hscan
      rw [show (⟨intercalateNL (lns.map renderLine)⟩ : String).data =
        intercalateNL (lns.map renderLine) from rfl]
      rw [hscan]
      rfl
  | cons t ts =>
      rw [if_neg (by simp)]
      unfold wellFormedXml xmlScan
      rw [show (⟨intercalateNL (lns.map renderLine ++
        commentLineChars :: (t :: ts).map closerChars)⟩ : String).data =
        intercalateNL (lns.map renderLine ++
          commentLineChars :: (t :: ts).map closerChars) from rfl]
      rw [intercalateNL_append (lns.map renderLine)
        (commentLineChars :: (t :: ts).map closerChars) hmapne (by simp)]
      rw [show intercalateNL (commentLineChars :: (t :: ts).map closerChars) =
        commentLineChars ++ '\n' :: intercalateNL ((t :: ts).map closerChars)
        from rfl]
      rw [xmlScan_doc lns [] (t :: ts) hgood1 hstack _]
      rw [xmlScanGo_nl]
      rw [xmlScanGo_commentLine, xmlScanGo_nl]
      rw [closersScan (t :: ts) hnames (by simp)]

end Trunc

/-- **C4, counterexample.** The claim quantifies over every `.sou` prefix
cut mid-element, but the opening-tag regex `<([a-zA-Z][\w-]*)[^/>]*(?<!/)>`
cannot traverse a `/` inside a quoted attribute value: on a prefix cut
inside `<body selector="/">…`, the `body` tag is never recorded as open, so
no `</body>` is appended and the output is not well-formed XML — even
though the input is a genuine mid-element cut (completing it does give a
well-formed document, second conjunct). -/
theorem claim4_counterexample :
    Trunc.wellFormedXml (Trunc.balance_xml_tags
      "<source>\n<methods>\n<class-id>Foo</class-id>\n<body selector=\"/\">\nbar")
      = false ∧
    Trunc.wellFormedXml
      "<source>\n<methods>\n<class-id>Foo</class-id>\n<body selector=\"/\">\nbar</body>\n</methods>\n</source>"
      = true := by
  constructor
  · decide
  · decide

/-- Witness for the amended C4 theorem at a concrete three-line input. -/
theorem claim4_witness :
    ([[Trunc.Item.openT "source" ""], [Trunc.Item.openT "methods" ""],
        [Trunc.Item.text "x"]] ≠ ([] : List (List Trunc.Item))) ∧
    Trunc.wellFormedXml (Trunc.balance_xml_tags
      ⟨Trunc.intercalateNL
        (([[Trunc.Item.openT "source" ""], [Trunc.Item.openT "methods" ""],
          [Trunc.Item.text "x"]]).map Trunc.renderLine)⟩) = true := by
  refine ⟨by decide, ?_⟩
  exact Trunc.claim4_balanced_output_wellformed
    [[Trunc.Item.openT "source" ""], [Trunc.Item.openT "methods" ""],
      [Trunc.Item.text "x"]]
    ["methods", "source"] (by decide) (by decide) (by decide)

